import Mathlib

/-!
Formal model of the hospital price-transparency engine: the per-source
indexed collection (`hospital_dataset_builder.py`), the NDC code
normalizer and cross-hospital price aggregation (`app.py`), the
hash-map code matcher (`hash_matcher.py`), and the fuzzy description
matcher built on Python's `difflib.SequenceMatcher`
(`improved_matcher.py`).  Machine floats are modelled as rationals;
Python dicts keyed by strings are modelled as total functions
`String → _` updated pointwise; Python sets of indices are modelled as
duplicate-free lists where only membership matters.  String operations
are modelled with ASCII semantics, which is what the data exercises.
-/

namespace THP

/-- Model of `str.lower` on a single character (ASCII range). -/
def pyLowerChar (c : Char) : Char :=
  if 'A' ≤ c ∧ c ≤ 'Z' then Char.ofNat (c.toNat + 32) else c

/-- Model of `str.lower`. -/
def pyLower (s : String) : String := ⟨s.data.map pyLowerChar⟩

/-- Characters stripped by `str.strip`. -/
def stripChars (l : List Char) : List Char :=
  ((l.dropWhile Char.isWhitespace).reverse.dropWhile Char.isWhitespace).reverse

/-- Model of `str.strip`. -/
def pyStrip (s : String) : String := ⟨stripChars s.data⟩

/-- Word characters of the regex class `\w` (ASCII). -/
def isWordChar (c : Char) : Bool := c.isAlphanum || c = '_'

/-- Accumulator pass behind `wordRuns`; `cur` holds the current run reversed. -/
def wordRunsAux : List Char → List Char → List (List Char)
  | [], cur => if cur = [] then [] else [cur.reverse]
  | c :: cs, cur =>
    if isWordChar c then wordRunsAux cs (c :: cur)
    else if cur = [] then wordRunsAux cs []
    else cur.reverse :: wordRunsAux cs []

/-- Model of `re.findall(r'\w+', s)`: the maximal runs of word characters. -/
def wordRuns (l : List Char) : List (List Char) := wordRunsAux l []

/-- Digit content of a string: model of `re.sub(r'\D', '', s)`. -/
def digitsOf (s : String) : List Char := s.data.filter Char.isDigit

/-- Model of `str.zfill` for the digit-only strings it is applied to here. -/
def zfill (n : Nat) (l : List Char) : List Char :=
  List.replicate (n - l.length) '0' ++ l

/-- Embeds `normalize_ndc` from `src/app.py`: keep only the digits, accept a
digit count between 9 and 11, and left-pad with zeros to 11 digits. -/
def normalize_ndc (ndc_code : String) : Option String :=
  let digits_only := digitsOf ndc_code
  if 9 ≤ digits_only.length ∧ digits_only.length ≤ 11 then
    some ⟨zfill 11 digits_only⟩
  else
    none

/-- The NDC match key formed in `find_cross_hospital_matches` in `src/app.py`:
`normalize_ndc` then the `NDC:` prefix; `None` aborts the code occurrence. -/
def ndcMatchKey (code_value : String) : Option String :=
  (normalize_ndc code_value).map (fun k => "NDC:" ++ k)

/-! Per-source indexed collection: `HospitalDataset` from
`src/hospital_dataset_builder.py`. -/

/-- One stored item as assembled by `build_hospital_dataset`: the fields
`drug_info` and `original_item` are carried along by the Python code but
never read by any indexed operation, so they are omitted.  A price entry is
represented by its `gross_charge` amount, the only field the indexed
operations read. -/
structure StoredItem where
  index : Nat
  description : String
  codes : List (String × String)
  prices : List Rat
deriving DecidableEq, Inhabited, Repr

/-- The per-hospital dataset with its four indexes (`items` is authoritative;
the maps model Python `defaultdict`s with their default values). -/
structure HospitalDataset where
  items : List StoredItem
  code_to_indices : String → List Nat
  description_to_indices : String → List Nat
  code_type_stats : String → Nat
  word_index : String → List Nat

/-- The freshly constructed dataset. -/
def HospitalDataset.empty : HospitalDataset :=
  ⟨[], fun _ => [], fun _ => [], fun _ => 0, fun _ => []⟩

/-- Append an index to one key of a list-valued map (`defaultdict(list)`). -/
def appendAt (m : String → List Nat) (key : String) (idx : Nat) :
    String → List Nat :=
  fun k => if k = key then m k ++ [idx] else m k

/-- Add an index to one key of a set-valued map (`defaultdict(set)`), the set
modelled as a duplicate-free list. -/
def insertAt (m : String → List Nat) (key : String) (idx : Nat) :
    String → List Nat :=
  fun k => if k = key then (if idx ∈ m k then m k else m k ++ [idx]) else m k

/-- Increment one key of a counter map (`Counter`). -/
def bumpAt (m : String → Nat) (key : String) : String → Nat :=
  fun k => if k = key then m k + 1 else m k

/-- The loop of `add_item` over the item's codes: each code indexed under
`"{type}:{value}"` and under the bare value, and its type counted. -/
def addCodesFold (item_index : Nat) (st : (String → List Nat) × (String → Nat))
    (codes : List (String × String)) : (String → List Nat) × (String → Nat) :=
  codes.foldl
    (fun acc ci =>
      (appendAt (appendAt acc.1 (ci.2 ++ ":" ++ ci.1) item_index) ci.1 item_index,
       bumpAt acc.2 ci.2))
    st

/-- The loop of `add_item` over the description's word tokens: tokens of
length at least 3 are added to the word index. -/
def addWordsFold (item_index : Nat) (w : String → List Nat)
    (words : List (List Char)) : String → List Nat :=
  words.foldl
    (fun w word => if 3 ≤ word.length then insertAt w ⟨word⟩ item_index else w)
    w

/-- Embeds `HospitalDataset.add_item`: append the item, index every code under
both `"{type}:{value}"` and the bare value, count the code type, and when the
stripped description is nonempty index it whole and by its word tokens of
length at least 3. -/
def addItem (ds : HospitalDataset) (item_data : StoredItem) : HospitalDataset :=
  let item_index := ds.items.length
  let items' := ds.items ++ [item_data]
  let idxStats := addCodesFold item_index (ds.code_to_indices, ds.code_type_stats)
    item_data.codes
  let description := pyStrip item_data.description
  if description = "" then
    ⟨items', idxStats.1, ds.description_to_indices, idxStats.2, ds.word_index⟩
  else
    let descIdx := appendAt ds.description_to_indices (pyLower description) item_index
    let wIdx := addWordsFold item_index ds.word_index (wordRuns (pyLower description).data)
    ⟨items', idxStats.1, descIdx, idxStats.2, wIdx⟩

/-- Embeds `HospitalDataset.find_by_code` (`code_type=None` becomes `none`). -/
def findByCode (ds : HospitalDataset) (code_value : String)
    (code_type : Option String) : List StoredItem :=
  let indices := match code_type with
    | some t => ds.code_to_indices (t ++ ":" ++ code_value)
    | none => ds.code_to_indices code_value
  indices.map (fun i => ds.items.getD i default)

/-- Embeds `HospitalDataset.find_by_description`. -/
def findByDescription (ds : HospitalDataset) (description : String) :
    List StoredItem :=
  (ds.description_to_indices (pyLower description)).map
    (fun i => ds.items.getD i default)

/-- One keyword of the `search_by_keywords` loop: lowercase and strip it,
and when its length is at least 3 start or intersect the matching set. -/
def searchStep (ds : HospitalDataset) (matching : Option (List Nat))
    (kw : String) : Option (List Nat) :=
  let keyword := pyStrip (pyLower kw)
  if 3 ≤ keyword.length then
    let keyword_indices := ds.word_index keyword
    match matching with
    | none => some keyword_indices
    | some m => some (m.filter (fun i => i ∈ keyword_indices))
  else matching

/-- Embeds `HospitalDataset.search_by_keywords` for a keyword list: every
keyword is lowercased and stripped, keywords of length at least 3 intersect
their posting sets, shorter keywords are passed over, and a missing or empty
intersection yields the empty result. -/
def searchByKeywords (ds : HospitalDataset) (keywords : List String) :
    List StoredItem :=
  match keywords.foldl (searchStep ds) none with
  | some m => if m.isEmpty then [] else m.map (fun i => ds.items.getD i default)
  | none => []

/-- The keywords `search_by_keywords` actually intersects on: each keyword
lowercased and stripped, keeping those of length at least 3. -/
def processedKeywords (keywords : List String) : List String :=
  (keywords.map (fun kw => pyStrip (pyLower kw))).filter (fun k => 3 ≤ k.length)

/-- Build a dataset by adding records in order (the ingestion loop's calls to
`add_item`). -/
def buildDataset (rs : List StoredItem) : HospitalDataset :=
  rs.foldl addItem HospitalDataset.empty

/-- One entry of a raw item's `code_information`; a `none` field models a
missing key. -/
structure RawCode where
  code : Option String
  type : Option String

/-- One entry of a raw item's `standard_charges`; `gross_charge = none` models
a missing key or a value `float()` rejects, `some v` a value parsing to `v`. -/
structure RawCharge where
  gross_charge : Option Rat

/-- A raw JSON item as read by `build_hospital_dataset`. -/
structure RawItem where
  description : String
  code_information : List RawCode
  standard_charges : List RawCharge

/-- Code extraction of `build_hospital_dataset`: entries with both keys whose
stripped code and type are nonempty. -/
def extractRawCodes (item : RawItem) : List (String × String) :=
  item.code_information.foldl (fun acc ci =>
    match ci.code, ci.type with
    | some cv, some ct =>
      let code_value := pyStrip cv
      let code_type := pyStrip ct
      if code_value ≠ "" ∧ code_type ≠ "" then acc ++ [(code_value, code_type)]
      else acc
    | _, _ => acc) []

/-- Price extraction of `build_hospital_dataset`: parseable gross charges that
are strictly positive. -/
def extractRawPrices (item : RawItem) : List Rat :=
  item.standard_charges.foldl (fun acc ch =>
    match ch.gross_charge with
    | some price => if 0 < price then acc ++ [price] else acc
    | none => acc) []

/-- Embeds the ingestion loop of `build_hospital_dataset` (file access and
printing aside): skip and count items whose stripped description is empty,
and call `add_item` exactly for items with at least one extracted code and
one extracted positive price.  Returns the dataset with the processed and
skipped counts. -/
def buildStep (st : HospitalDataset × Nat × Nat) (p : Nat × RawItem) :
    HospitalDataset × Nat × Nat :=
  let description := pyStrip p.2.description
  if description = "" then (st.1, st.2.1, st.2.2 + 1)
  else
    let codes := extractRawCodes p.2
    let prices := extractRawPrices p.2
    if codes ≠ [] ∧ prices ≠ [] then
      (addItem st.1 ⟨p.1, description, codes, prices⟩, st.2.1 + 1, st.2.2)
    else (st.1, st.2.1, st.2.2)

/-- The fold of `buildStep` over the enumerated raw items. -/
def buildHospitalDataset (raws : List RawItem) : HospitalDataset × Nat × Nat :=
  raws.enum.foldl buildStep (HospitalDataset.empty, 0, 0)

/-! Hash-map cross-hospital matcher: `HashMatcher.find_code_matches` from
`src/hash_matcher.py`. -/

/-- An item as processed by `HashMatcher.load_hospital_data`; only the fields
read by `find_code_matches` are carried. -/
structure HashItem where
  hospital : String
  description : String
deriving DecidableEq, Inhabited, Repr

/-- Insertion-ordered bucketing by a string key, the behaviour of a Python
`defaultdict(list)` filled in iteration order. -/
def bucketBy {α : Type} (key : α → String) (items : List α) :
    List (String × List α) :=
  items.foldl (fun bs it =>
    if bs.any (fun b => b.1 = key it) then
      bs.map (fun b => if b.1 = key it then (b.1, b.2 ++ [it]) else b)
    else bs ++ [(key it, [it])]) []

/-- Python `max(items, key=lambda x: len(x['description']))`: the first item
whose description length is maximal. -/
def maxByDescLen (l : List HashItem) : HashItem :=
  match l with
  | [] => default
  | x :: xs => xs.foldl (fun best it =>
      if best.description.length < it.description.length then it else best) x

/-- One match emitted by `find_code_matches`. -/
structure CodeMatch where
  code : String
  items : List HashItem
  hospital_count : Nat
  total_items : Nat
deriving DecidableEq, Inhabited, Repr

/-- Embeds `HashMatcher.find_code_matches` (console output aside): for every
normalized-code bucket of `code_to_items`, group its items by hospital, keep
the codes spanning at least two hospitals with one representative item per
hospital (the longest description), and sort by hospital count descending
(Python's stable sort). -/
def findCodeMatches (code_to_items : List (String × List HashItem)) :
    List CodeMatch :=
  let ms := code_to_items.foldl (fun acc ci =>
    let hospitals_with_items := bucketBy (fun it => it.hospital) ci.2
    if 2 ≤ hospitals_with_items.length then
      acc ++ [{ code := ci.1,
                items := hospitals_with_items.map (fun b => maxByDescLen b.2),
                hospital_count := hospitals_with_items.length,
                total_items := ci.2.length }]
    else acc) []
  ms.mergeSort (fun x y => y.hospital_count ≤ x.hospital_count)

/-! Cross-hospital price aggregation: steps 2 and 3 of
`find_cross_hospital_matches` in `src/app.py`. -/

/-- A dataset item as read by the aggregation: only its price entries'
`gross_charge` amounts matter. -/
structure AppItem where
  description : String
  prices : List Rat
deriving DecidableEq, Inhabited

/-- The best price of one item:
`min(p['gross_charge'] for p in item['prices'] if p['gross_charge'] > 0) if
item['prices'] else 0`; `none` models the `ValueError` Python's `min` raises
when `prices` is nonempty but has no positive amount. -/
def bestPrice (item : AppItem) : Option Rat :=
  if item.prices = [] then some 0
  else
    match item.prices.filter (fun p => decide (0 < p)) with
    | [] => none
    | q :: qs => some (qs.foldl min q)

/-- The running state of one code group during step 2: `min_price = none`
models the initial `float('inf')`, and `hospitals` the insertion-ordered key
set of the per-hospital dict. -/
structure GroupAcc where
  min_price : Option Rat
  max_price : Rat
  hospitals : List String
deriving DecidableEq, Inhabited

/-- One member occurrence added to a code group in step 2: min and max are
updated only when the item's best price is positive, then the hospital key is
recorded. -/
def groupStep (acc : GroupAcc) (member : String × AppItem) : Option GroupAcc :=
  match bestPrice member.2 with
  | none => none
  | some bp =>
    let acc1 :=
      if 0 < bp then
        { acc with
          min_price := some (match acc.min_price with
            | none => bp
            | some m => min m bp),
          max_price := max acc.max_price bp }
      else acc
    some { acc1 with
           hospitals := if member.1 ∈ acc1.hospitals then acc1.hospitals
                        else acc1.hospitals ++ [member.1] }

/-- Step 2 of `find_cross_hospital_matches` restricted to the occurrences of
one code group, in processing order. -/
def accumGroup (members : List (String × AppItem)) : Option GroupAcc :=
  List.foldlM groupStep ⟨none, 0, []⟩ members

/-- The summary a group carries after step 3. -/
structure GroupSummary where
  min_price : Rat
  max_price : Rat
  price_spread : Rat
  price_spread_percent : Rat
  hospital_count : Nat
deriving DecidableEq, Inhabited

/-- Step 3 of `find_cross_hospital_matches` for one group: drop groups with
fewer than two hospitals, replace an untouched infinite min by 0, and compute
the spread and the spread percent. -/
def finalizeGroup (acc : GroupAcc) : Option GroupSummary :=
  if 2 ≤ acc.hospitals.length then
    let min_price := acc.min_price.getD 0
    if 0 < acc.max_price ∧ 0 < min_price then
      some ⟨min_price, acc.max_price, acc.max_price - min_price,
            (acc.max_price - min_price) / min_price * 100,
            acc.hospitals.length⟩
    else
      some ⟨min_price, acc.max_price, 0, 0, acc.hospitals.length⟩
  else none

/-- The per-group pipeline of `find_cross_hospital_matches`: accumulate the
member occurrences (step 2), then filter and summarize (step 3); the outer
`none` is the propagated `ValueError` of `bestPrice`. -/
def summarizeGroup (members : List (String × AppItem)) :
    Option (Option GroupSummary) :=
  (accumGroup members).map finalizeGroup

/-- The positive per-item best prices of a group's member occurrences, in
order; these are exactly the values with which step 2 updates min and max. -/
def posBests (members : List (String × AppItem)) : List Rat :=
  members.foldr (fun m acc => match bestPrice m.2 with
    | some b => if 0 < b then b :: acc else acc
    | none => acc) []

/-- The minimum of a price list, 0 on the empty list. -/
def minD (l : List Rat) : Rat :=
  match l with
  | [] => 0
  | q :: qs => qs.foldl min q

/-- The distinct sources of a group in order of first appearance. -/
def groupSources (members : List (String × AppItem)) : List String :=
  (members.map (fun m => m.1)).dedup

/-- Stated from the spec's words, for comparison with the code: a source's
best price is the minimum strictly-positive amount among that source's price
entries, 0 when it has none. -/
def specSourceBest (members : List (String × AppItem)) (src : String) : Rat :=
  minD (((members.filter (fun m => m.1 = src)).flatMap
    (fun m => m.2.prices)).filter (fun p => decide (0 < p)))

/-- Stated from the spec's words: the per-source best prices of a group. -/
def specSourceBests (members : List (String × AppItem)) : List Rat :=
  (groupSources members).map (specSourceBest members)

/-- All strictly-positive amounts occurring in a group's member items. -/
def posAmounts (members : List (String × AppItem)) : List Rat :=
  (members.flatMap (fun m => m.2.prices)).filter (fun p => decide (0 < p))

/-! The description similarity used by `src/improved_matcher.py`:
`difflib.SequenceMatcher(None, a.lower(), b.lower()).ratio()`, embedded from
CPython's `difflib.py` for `isjunk=None` (the junk set is empty; the
`autojunk` purge of popular elements remains). -/

/-- The occurrence positions of `c` in `b` in increasing order: the raw `b2j`
mapping built by `SequenceMatcher.__chain_b`. -/
def b2jRaw (b : List Char) (c : Char) : List Nat :=
  (b.enum.filter (fun p => p.2 = c)).map (fun p => p.1)

/-- The `b2j` map after the `autojunk` purge: when `b` has at least 200
elements, elements occurring more than `len(b) // 100 + 1` times are
dropped. -/
def b2j (b : List Char) (c : Char) : List Nat :=
  if 200 ≤ b.length ∧ b.length / 100 + 1 < (b2jRaw b c).length then []
  else b2jRaw b c

/-- Inner loop of `find_longest_match` over the occurrence list of `a[i]`
(ascending), with the `continue` below `blo` and the `break` from `bhi` on;
`j2len` is the previous row's run-length map, `newj2len` the one being built,
and the best block is replaced exactly when strictly longer.  The `j = 0`
case mirrors Python's `j2len.get(j-1, 0)` reading key `-1`. -/
def flmInner (blo bhi i : Nat) :
    List Nat → (Nat → Nat) → (Nat → Nat) → Nat × Nat × Nat →
    (Nat → Nat) × (Nat × Nat × Nat)
  | [], _, newj2len, best => (newj2len, best)
  | j :: js, j2len, newj2len, best =>
    if j < blo then flmInner blo bhi i js j2len newj2len best
    else if bhi ≤ j then (newj2len, best)
    else
      let k := (if j = 0 then 0 else j2len (j - 1)) + 1
      let newj2len' := fun x => if x = j then k else newj2len x
      let best' := if best.2.2 < k then (i + 1 - k, j + 1 - k, k) else best
      flmInner blo bhi i js j2len newj2len' best'

/-- Row loop of `find_longest_match` over `range(alo, ahi)`. -/
def flmRows (a b : List Char) (blo bhi : Nat) :
    List Nat → (Nat → Nat) → Nat × Nat × Nat → Nat × Nat × Nat
  | [], _, best => best
  | i :: is, j2len, best =>
    let r := flmInner blo bhi i (b2j b (a.getD i ' ')) j2len (fun _ => 0) best
    flmRows a b blo bhi is r.1 r.2

/-- The backward extension loop of `find_longest_match` (its junk test is
vacuous for `isjunk=None`); the fuel dominates `besti`, which strictly
decreases. -/
def extendBack (a b : List Char) (alo blo : Nat) :
    Nat → Nat × Nat × Nat → Nat × Nat × Nat
  | 0, best => best
  | fuel + 1, best =>
    if alo < best.1 ∧ blo < best.2.1 ∧
        a.getD (best.1 - 1) ' ' = b.getD (best.2.1 - 1) ' ' then
      extendBack a b alo blo fuel (best.1 - 1, best.2.1 - 1, best.2.2 + 1)
    else best

/-- The forward extension loop of `find_longest_match`; the fuel dominates
`ahi - (besti + bestsize)`. -/
def extendFwd (a b : List Char) (ahi bhi : Nat) :
    Nat → Nat × Nat × Nat → Nat × Nat × Nat
  | 0, best => best
  | fuel + 1, best =>
    if best.1 + best.2.2 < ahi ∧ best.2.1 + best.2.2 < bhi ∧
        a.getD (best.1 + best.2.2) ' ' = b.getD (best.2.1 + best.2.2) ' ' then
      extendFwd a b ahi bhi fuel (best.1, best.2.1, best.2.2 + 1)
    else best

/-- A match triple `(i, j, k)` lies within the region
`[alo, ahi) × [blo, bhi)`. -/
def FlmOk (alo ahi blo bhi : Nat) (m : Nat × Nat × Nat) : Prop :=
  alo ≤ m.1 ∧ m.1 + m.2.2 ≤ ahi ∧ blo ≤ m.2.1 ∧ m.2.1 + m.2.2 ≤ bhi

/-- Run-length bounds for a `j2len` row when the next row to process is
`irow`: every run fits between `alo` and `irow` and between `blo` and its
own column. -/
def J2Ok (alo blo irow : Nat) (f : Nat → Nat) : Prop :=
  ∀ j, f j ≤ irow - alo ∧ f j ≤ j + 1 - blo

/-- Embeds `SequenceMatcher.find_longest_match` for `isjunk=None`: the main
dynamic-programming loop, then the two non-junk extension loops (the two
junk-extension loops never fire since the junk set is empty). -/
def findLongestMatch (a b : List Char) (alo ahi blo bhi : Nat) :
    Nat × Nat × Nat :=
  let best := flmRows a b blo bhi (List.range' alo (ahi - alo)) (fun _ => 0)
    (alo, blo, 0)
  let best := extendBack a b alo blo best.1 best
  extendFwd a b ahi bhi ahi best

/-- The total size of the matching blocks produced by the region splitting of
`get_matching_blocks` (the Python queue visits exactly these regions; only
the total enters `ratio`).  Every split strictly shrinks `ahi - alo`, so the
fuel used below dominates the recursion depth. -/
def matchesTotal (a b : List Char) : Nat → Nat → Nat → Nat → Nat → Nat
  | 0, _, _, _, _ => 0
  | fuel + 1, alo, ahi, blo, bhi =>
    let m := findLongestMatch a b alo ahi blo bhi
    if m.2.2 = 0 then 0
    else
      m.2.2 +
      (if alo < m.1 ∧ blo < m.2.1 then
        matchesTotal a b fuel alo m.1 blo m.2.1 else 0) +
      (if m.1 + m.2.2 < ahi ∧ m.2.1 + m.2.2 < bhi then
        matchesTotal a b fuel (m.1 + m.2.2) ahi (m.2.1 + m.2.2) bhi else 0)

/-- Embeds `SequenceMatcher.ratio` for `isjunk=None`: `2.0 * M / T` with `T`
the total length, and 1.0 when both sequences are empty. -/
def ratioChars (a b : List Char) : Rat :=
  let m := matchesTotal a b (a.length + b.length + 1) 0 a.length 0 b.length
  if a.length + b.length ≠ 0 then
    2 * (m : Rat) / ((a.length : Rat) + (b.length : Rat))
  else 1

/-- Embeds `ImprovedMatcher.similarity_score`:
`SequenceMatcher(None, str1.lower(), str2.lower()).ratio()`. -/
def similarity_score (str1 str2 : String) : Rat :=
  ratioChars (pyLower str1).data (pyLower str2).data

/-! The fuzzy grouping pass: `ImprovedMatcher.find_matches` from
`src/improved_matcher.py`. -/

/-- Model of `str.upper` on a single character (ASCII range). -/
def pyUpperChar (c : Char) : Char :=
  if 'a' ≤ c ∧ c ≤ 'z' then Char.ofNat (c.toNat - 32) else c

/-- Embeds `ImprovedMatcher.normalize_code`: strip, uppercase, then drop the
leading zeros (`re.sub(r'^0+', '', code)`). -/
def normalize_code_imp (code : String) : String :=
  ⟨((pyStrip code).data.map pyUpperChar).dropWhile (fun ch => ch = '0')⟩

/-- Python `needle in hay` on strings, over the character lists. -/
def isPrefixOfChars : List Char → List Char → Bool
  | [], _ => true
  | _ :: _, [] => false
  | c :: cs, d :: ds => c = d && isPrefixOfChars cs ds

/-- Substring test `needle in hay` of Python. -/
def containsSub (needle : List Char) : List Char → Bool
  | [] => isPrefixOfChars needle []
  | c :: cs => isPrefixOfChars needle (c :: cs) || containsSub needle cs

/-- Substring test on strings. -/
def strIn (needle hay : String) : Bool := containsSub needle.data hay.data

/-- Embeds `ImprovedMatcher.categorize_procedure`. -/
def categorize_procedure (description : String) : String :=
  let d := pyLower description
  if ["insulin", "diabetic", "glucose"].any (fun w => strIn w d) then
    "Diabetes Care"
  else if ["antibiotic", "penicillin", "amoxicillin", "azithromycin"].any
      (fun w => strIn w d) then "Antibiotics"
  else if ["blood pressure", "hypertension", "metoprolol", "lisinopril"].any
      (fun w => strIn w d) then "Cardiovascular"
  else if ["mri", "ct scan", "x-ray", "ultrasound", "echo"].any
      (fun w => strIn w d) then "Imaging"
  else if ["surgery", "surgical", "operation"].any (fun w => strIn w d) then
    "Surgery"
  else if ["lab", "test", "analysis", "panel"].any (fun w => strIn w d) then
    "Laboratory"
  else if ["vaccine", "immunization", "flu shot"].any (fun w => strIn w d) then
    "Vaccines"
  else if ["pain", "analgesic", "morphine", "oxycodone"].any
      (fun w => strIn w d) then "Pain Management"
  else "Other"

/-- Embeds the `normalized_desc` field of `load_hospital_data`:
`re.sub(r'[^\w\s]', ' ', description.lower()).strip()`. -/
def normalizeDesc (description : String) : String :=
  pyStrip ⟨(pyLower description).data.map
    (fun c => if isWordChar c || c.isWhitespace then c else ' ')⟩

/-- An item as `ImprovedMatcher.load_hospital_data` stores it. -/
structure ImpItem where
  hospital : String
  description : String
  price : Rat
  codes : List (String × String)
  category : String
  normalized_desc : String
deriving DecidableEq, Inhabited

/-- Build an `ImpItem` the way `load_hospital_data` does. -/
def mkImpItem (hospital description : String) (price : Rat)
    (codes : List (String × String)) : ImpItem :=
  ⟨hospital, description, price, codes, categorize_procedure description,
   normalizeDesc description⟩

/-- The code-overlap test inside `find_matches`: both items carry codes and
their normalized code-value sets intersect. -/
def codeOverlapB (x y : ImpItem) : Bool :=
  !x.codes.isEmpty && !y.codes.isEmpty &&
    x.codes.any (fun c => y.codes.any (fun d =>
      normalize_code_imp c.1 = normalize_code_imp d.1))

/-- The dedup test of `find_matches`: a seed is skipped when its normalized
description is strictly more than 0.9-similar to an already processed one. -/
def skipSeed (processed : List String) (desc : String) : Bool :=
  processed.any (fun p => decide ((9 : Rat)/10 < similarity_score desc p))

/-- The collection loop of `find_matches` for one seed: the seed itself plus
every bucket item from another hospital whose description similarity is
strictly above 0.8 or whose codes overlap the seed's. -/
def similarItems (item : ImpItem) (category_items : List ImpItem) :
    List ImpItem :=
  item :: category_items.filter (fun other =>
    other.hospital ≠ item.hospital &&
    (decide ((4 : Rat)/5 <
        similarity_score item.normalized_desc other.normalized_desc) ||
      codeOverlapB item other))

/-- One category bucket's seed loop in `find_matches`, threading the
`processed_descriptions` set and collecting this bucket's `desc_groups`:
a group is kept, and its seed description marked processed, exactly when its
items span at least two hospitals. -/
def categoryPass (category_items : List ImpItem) (processed0 : List String) :
    List String × List (List ImpItem) :=
  category_items.foldl (fun st item =>
    let desc := item.normalized_desc
    if skipSeed st.1 desc then st
    else
      let sims := similarItems item category_items
      if 2 ≤ ((sims.map (fun it => it.hospital)).dedup).length then
        (st.1 ++ [desc], st.2 ++ [sims])
      else st)
    (processed0, [])

/-- Embeds `ImprovedMatcher.find_matches`: bucket by category, run the seed
loop per bucket threading the processed set, and return the `desc_groups`
variable of the *last* bucket — the Python function returns the loop-local
list, so earlier buckets' groups are dropped, and on an empty input the name
is unbound (`NameError`), modelled by `none`. -/
def findMatches (all_items : List ImpItem) : Option (List (List ImpItem)) :=
  match bucketBy (fun it => it.category) all_items with
  | [] => none
  | c :: cs =>
    some (((c :: cs).foldl
      (fun st cat => categoryPass cat.2 st.1)
      (([] : List String), ([] : List (List ImpItem)))).2)

/-- C1.  NDC normalization: a code whose digit content has between 9 and 11
digits normalizes to the digit string left-zero-padded to 11 characters with
the `NDC:` prefix; any other digit count yields `None`; the two spelled-out
example codes map to the same canonical key `NDC:00002831501`. -/
theorem C1_ndc_normalization (code : String) :
    (9 ≤ (digitsOf code).length → (digitsOf code).length ≤ 11 →
      ndcMatchKey code = some ("NDC:" ++ String.mk (zfill 11 (digitsOf code))) ∧
      (zfill 11 (digitsOf code)).length = 11) ∧
    ((digitsOf code).length < 9 ∨ 11 < (digitsOf code).length →
      ndcMatchKey code = none) ∧
    ndcMatchKey "0002-8315-01" = some "NDC:00002831501" ∧
    ndcMatchKey "00002831501" = some "NDC:00002831501" := by
  refine ⟨fun h9 h11 => ?_, fun hout => ?_, by decide, by decide⟩
  · constructor
    · simp only [ndcMatchKey, normalize_ndc]
      rw [if_pos ⟨h9, h11⟩]
      rfl
    · simp only [zfill, List.length_append, List.length_replicate]
      omega
  · simp only [ndcMatchKey, normalize_ndc]
    rw [if_neg (by omega)]
    rfl

/-- Witness for C1 at the concrete NDC code `0002-8315-01`, whose digit
content has 10 digits. -/
theorem C1_ndc_normalization_witness :
    ndcMatchKey "0002-8315-01" =
      some ("NDC:" ++ String.mk (zfill 11 (digitsOf "0002-8315-01"))) ∧
    (zfill 11 (digitsOf "0002-8315-01")).length = 11 :=
  (C1_ndc_normalization "0002-8315-01").1 (by decide) (by decide)

/-! Character and token facts used by the index-consistency proofs. -/

theorem toNat_ofNat_valid (n : Nat) (h : n.isValidChar) :
    (Char.ofNat n).toNat = n := by
  rw [Char.ofNat, dif_pos h]
  simp [Char.toNat, Char.ofNatAux, UInt32.ofNat', UInt32.toNat]

theorem upper_range_iff (c : Char) :
    ('A' ≤ c ∧ c ≤ 'Z') ↔ (65 ≤ c.toNat ∧ c.toNat ≤ 90) := by
  rw [Char.le_def, Char.le_def]
  exact ⟨fun ⟨h1, h2⟩ => ⟨h1, h2⟩, fun ⟨h1, h2⟩ => ⟨h1, h2⟩⟩

theorem pyLowerChar_idem (c : Char) :
    pyLowerChar (pyLowerChar c) = pyLowerChar c := by
  by_cases h : 'A' ≤ c ∧ c ≤ 'Z'
  · have hr := (upper_range_iff c).mp h
    have hv : (c.toNat + 32).isValidChar := Or.inl (by omega)
    have ht : (Char.ofNat (c.toNat + 32)).toNat = c.toNat + 32 :=
      toNat_ofNat_valid _ hv
    have hlc : pyLowerChar c = Char.ofNat (c.toNat + 32) := by
      rw [pyLowerChar, if_pos h]
    rw [hlc, pyLowerChar, if_neg]
    intro hcon
    have hcon2 := (upper_range_iff _).mp hcon
    rw [ht] at hcon2
    omega
  · have hlc : pyLowerChar c = c := by rw [pyLowerChar, if_neg h]
    rw [hlc, hlc]

theorem mem_pyLower_fixed {s : String} {c : Char} (hc : c ∈ (pyLower s).data) :
    pyLowerChar c = c := by
  simp only [pyLower] at hc
  obtain ⟨x, _, hx⟩ := List.mem_map.mp hc
  rw [← hx]
  exact pyLowerChar_idem x

theorem pyLower_fixed_of_chars {l : List Char}
    (h : ∀ c ∈ l, pyLowerChar c = c) : pyLower ⟨l⟩ = ⟨l⟩ := by
  simp only [pyLower]
  congr 1
  exact (List.map_congr_left h).trans (List.map_id l)

theorem dropWhile_eq_self_of_head {p : Char → Bool} :
    ∀ {l : List Char}, (∀ c ∈ l, p c = false) → l.dropWhile p = l
  | [], _ => rfl
  | c :: cs, h => by
    rw [List.dropWhile_cons, if_neg]
    simp [h c (List.mem_cons_self c cs)]

theorem stripChars_of_no_ws {l : List Char}
    (h : ∀ c ∈ l, c.isWhitespace = false) : stripChars l = l := by
  rw [stripChars, dropWhile_eq_self_of_head h, dropWhile_eq_self_of_head, List.reverse_reverse]
  intro c hc
  exact h c (List.mem_reverse.mp hc)

theorem isWordChar_not_ws {c : Char} (h : isWordChar c = true) :
    c.isWhitespace = false := by
  by_contra hcon
  have hws : c.isWhitespace = true := by
    cases hq : c.isWhitespace
    · exact absurd hq hcon
    · rfl
  have hd : ((c = ' ' ∨ c = '\t') ∨ c = '\x0d') ∨ c = '\n' := by
    simpa [Char.isWhitespace] using hws
  rcases hd with ((h1 | h1) | h1) | h1 <;> subst h1 <;> simp [isWordChar] at h

theorem wordRunsAux_mem :
    ∀ (l cur : List Char) (t : List Char), t ∈ wordRunsAux l cur →
      ∀ c ∈ t, (isWordChar c = true ∧ c ∈ l) ∨ c ∈ cur
  | [], cur, t, ht, c, hc => by
    rw [wordRunsAux] at ht
    split at ht
    · simp at ht
    · simp only [List.mem_singleton] at ht
      subst ht
      exact Or.inr (List.mem_reverse.mp hc)
  | a :: l, cur, t, ht, c, hc => by
    rw [wordRunsAux] at ht
    split at ht
    · rcases wordRunsAux_mem l (a :: cur) t ht c hc with ⟨hw, hm⟩ | hm
      · exact Or.inl ⟨hw, List.mem_cons_of_mem a hm⟩
      · rcases List.mem_cons.mp hm with rfl | hm
        · exact Or.inl ⟨by assumption, by simp⟩
        · exact Or.inr hm
    · split at ht
      · rcases wordRunsAux_mem l [] t ht c hc with ⟨hw, hm⟩ | hm
        · exact Or.inl ⟨hw, List.mem_cons_of_mem a hm⟩
        · simp at hm
      · rcases List.mem_cons.mp ht with rfl | ht
        · exact Or.inr (List.mem_reverse.mp hc)
        · rcases wordRunsAux_mem l [] t ht c hc with ⟨hw, hm⟩ | hm
          · exact Or.inl ⟨hw, List.mem_cons_of_mem a hm⟩
          · simp at hm

theorem wordRuns_mem {l t : List Char} (ht : t ∈ wordRuns l) :
    ∀ c ∈ t, isWordChar c = true ∧ c ∈ l := by
  intro c hc
  rcases wordRunsAux_mem l [] t ht c hc with h | h
  · exact h
  · simp at h

/-- A token taken from a lowered string is already lowercase, whitespace-free
and of the same length as its character list: the keyword preprocessing of
`search_by_keywords` leaves it unchanged. -/
theorem token_fixed {s : String} {t : List Char}
    (ht : t ∈ wordRuns (pyLower s).data) :
    pyStrip (pyLower ⟨t⟩) = ⟨t⟩ ∧ (String.mk t).length = t.length := by
  have hchars := wordRuns_mem ht
  have hlower : pyLower ⟨t⟩ = ⟨t⟩ :=
    pyLower_fixed_of_chars (fun c hc => mem_pyLower_fixed (hchars c hc).2)
  refine ⟨?_, rfl⟩
  rw [hlower]
  show String.mk (stripChars t) = ⟨t⟩
  rw [stripChars_of_no_ws (fun c hc => isWordChar_not_ws (hchars c hc).1)]

/-! Index-map helper facts. -/

theorem mem_appendAt {m : String → List Nat} {key k : String} {i p : Nat}
    (h : p ∈ m k) : p ∈ appendAt m key i k := by
  rw [appendAt]
  split <;> simp [h]

theorem self_mem_appendAt (m : String → List Nat) (key : String) (i : Nat) :
    i ∈ appendAt m key i key := by
  simp [appendAt]

theorem mem_insertAt {m : String → List Nat} {key k : String} {i p : Nat}
    (h : p ∈ m k) : p ∈ insertAt m key i k := by
  rw [insertAt]
  split
  · split <;> simp [h]
  · exact h

theorem self_mem_insertAt (m : String → List Nat) (key : String) (i : Nat) :
    i ∈ insertAt m key i key := by
  rw [insertAt, if_pos rfl]
  split
  · assumption
  · simp

theorem addCodesFold_mono {i : Nat} :
    ∀ (codes : List (String × String)) (st : (String → List Nat) × (String → Nat))
      {k : String} {p : Nat}, p ∈ st.1 k → p ∈ (addCodesFold i st codes).1 k
  | [], _, _, _, h => h
  | c :: cs, st, k, p, h => by
    rw [addCodesFold] at *
    exact addCodesFold_mono cs _ (mem_appendAt (mem_appendAt h))

theorem addCodesFold_adds {i : Nat} :
    ∀ (codes : List (String × String)) (st : (String → List Nat) × (String → Nat))
      {cv ct : String}, (cv, ct) ∈ codes →
      i ∈ (addCodesFold i st codes).1 (ct ++ ":" ++ cv) ∧
      i ∈ (addCodesFold i st codes).1 cv
  | c :: cs, st, cv, ct, h => by
    rcases List.mem_cons.mp h with rfl | h
    · constructor
      · exact addCodesFold_mono cs _ (mem_appendAt (self_mem_appendAt _ _ _))
      · exact addCodesFold_mono cs _ (self_mem_appendAt _ _ _)
    · exact addCodesFold_adds cs _ h

theorem addWordsFold_mono {i : Nat} :
    ∀ (words : List (List Char)) (w : String → List Nat) {k : String} {p : Nat},
      p ∈ w k → p ∈ addWordsFold i w words k
  | [], _, _, _, h => h
  | t :: ts, w, k, p, h => by
    show p ∈ addWordsFold i (if 3 ≤ t.length then insertAt w ⟨t⟩ i else w) ts k
    split
    · exact addWordsFold_mono ts _ (mem_insertAt h)
    · exact addWordsFold_mono ts _ h

theorem addWordsFold_adds {i : Nat} :
    ∀ (words : List (List Char)) (w : String → List Nat) {t : List Char},
      t ∈ words → 3 ≤ t.length → i ∈ addWordsFold i w words ⟨t⟩
  | u :: ts, w, t, h, hlen => by
    rcases List.mem_cons.mp h with rfl | h
    · show i ∈ addWordsFold i (if 3 ≤ t.length then insertAt w ⟨t⟩ i else w) ts ⟨t⟩
      rw [if_pos hlen]
      exact addWordsFold_mono ts _ (self_mem_insertAt _ _ _)
    · show i ∈ addWordsFold i (if 3 ≤ u.length then insertAt w ⟨u⟩ i else w) ts ⟨t⟩
      split <;> exact addWordsFold_adds ts _ h hlen

/-! Effects of `add_item` and of the dataset build fold. -/

theorem addItem_items (ds : HospitalDataset) (it : StoredItem) :
    (addItem ds it).items = ds.items ++ [it] := by
  rw [addItem]
  split <;> rfl

theorem addItem_code_mono {ds : HospitalDataset} {it : StoredItem} {k : String}
    {p : Nat} (h : p ∈ ds.code_to_indices k) :
    p ∈ (addItem ds it).code_to_indices k := by
  rw [addItem]
  split <;> exact addCodesFold_mono _ _ h

theorem addItem_code_adds {ds : HospitalDataset} {it : StoredItem}
    {cv ct : String} (h : (cv, ct) ∈ it.codes) :
    ds.items.length ∈ (addItem ds it).code_to_indices (ct ++ ":" ++ cv) ∧
    ds.items.length ∈ (addItem ds it).code_to_indices cv := by
  rw [addItem]
  split <;> exact addCodesFold_adds _ _ h

theorem addItem_word_mono {ds : HospitalDataset} {it : StoredItem} {k : String}
    {p : Nat} (h : p ∈ ds.word_index k) : p ∈ (addItem ds it).word_index k := by
  rw [addItem]
  split
  · exact h
  · exact addWordsFold_mono _ _ h

theorem addItem_word_adds {ds : HospitalDataset} {it : StoredItem}
    {t : List Char} (ht : t ∈ wordRuns (pyLower (pyStrip it.description)).data)
    (hlen : 3 ≤ t.length) :
    ds.items.length ∈ (addItem ds it).word_index ⟨t⟩ := by
  rw [addItem]
  split
  · rename_i hdesc
    rw [hdesc] at ht
    simp [pyLower, wordRuns, wordRunsAux] at ht
  · exact addWordsFold_adds _ _ ht hlen

theorem foldl_addItem_items :
    ∀ (rs : List StoredItem) (ds : HospitalDataset),
      (List.foldl addItem ds rs).items = ds.items ++ rs
  | [], ds => by simp
  | r :: rs, ds => by
    rw [List.foldl_cons, foldl_addItem_items rs, addItem_items]
    simp

theorem foldl_addItem_code_mono :
    ∀ (rs : List StoredItem) (ds : HospitalDataset) {k : String} {p : Nat},
      p ∈ ds.code_to_indices k → p ∈ (List.foldl addItem ds rs).code_to_indices k
  | [], _, _, _, h => h
  | r :: rs, ds, k, p, h =>
    foldl_addItem_code_mono rs (addItem ds r) (addItem_code_mono h)

theorem foldl_addItem_word_mono :
    ∀ (rs : List StoredItem) (ds : HospitalDataset) {k : String} {p : Nat},
      p ∈ ds.word_index k → p ∈ (List.foldl addItem ds rs).word_index k
  | [], _, _, _, h => h
  | r :: rs, ds, k, p, h =>
    foldl_addItem_word_mono rs (addItem ds r) (addItem_word_mono h)

theorem getD_append_length :
    ∀ (l : List StoredItem) (x d : StoredItem), (l ++ [x]).getD l.length d = x
  | [], _, _ => rfl
  | y :: l, x, d => getD_append_length l x d

/-- Every record added to the build fold sits at a stable position that every
index entry for its codes and long word tokens refers to. -/
theorem buildDataset_indexed :
    ∀ (rs : List StoredItem) (ds : HospitalDataset) (r : StoredItem), r ∈ rs →
      ∃ p, p < (List.foldl addItem ds rs).items.length ∧
        (List.foldl addItem ds rs).items.getD p default = r ∧
        (∀ cv ct, (cv, ct) ∈ r.codes →
          p ∈ (List.foldl addItem ds rs).code_to_indices (ct ++ ":" ++ cv) ∧
          p ∈ (List.foldl addItem ds rs).code_to_indices cv) ∧
        (∀ t, t ∈ wordRuns (pyLower (pyStrip r.description)).data →
          3 ≤ t.length → p ∈ (List.foldl addItem ds rs).word_index ⟨t⟩)
  | r0 :: rs, ds, r, hr => by
    rcases List.mem_cons.mp hr with rfl | hr
    · refine ⟨ds.items.length, ?_, ?_, ?_, ?_⟩
      · rw [List.foldl_cons, foldl_addItem_items, addItem_items]
        simp
      · rw [List.foldl_cons, foldl_addItem_items, addItem_items]
        rw [List.getD_append _ _ _ _ (by simp)]
        exact getD_append_length ds.items r default
      · intro cv ct hct
        have h2 := @addItem_code_adds ds r cv ct hct
        exact ⟨foldl_addItem_code_mono rs _ h2.1, foldl_addItem_code_mono rs _ h2.2⟩
      · intro t ht hlen
        exact foldl_addItem_word_mono rs _ (addItem_word_adds ht hlen)
    · rcases buildDataset_indexed rs (addItem ds r0) r hr with ⟨p, h1, h2, h3, h4⟩
      exact ⟨p, by rwa [List.foldl_cons], by rwa [List.foldl_cons],
        by rw [List.foldl_cons]; exact h3, by rw [List.foldl_cons]; exact h4⟩

/-- A keyword search on a single already-processed keyword of length at least
3 reads off that keyword's posting set. -/
theorem search_singleton (ds : HospitalDataset) (kw : String)
    (hkw : pyStrip (pyLower kw) = kw) (hlen : 3 ≤ kw.length) :
    searchByKeywords ds [kw] =
      if (ds.word_index kw).isEmpty then []
      else (ds.word_index kw).map (fun i => ds.items.getD i default) := by
  simp [searchByKeywords, searchStep, hkw, hlen]

/-- C6.  Index consistency: every record added to a collection is returned by
a typed code lookup for each of its `(code, type)` pairs, and by a keyword
search on any single word token of length at least 3 occurring in its
(stripped, lowered) description. -/
theorem C6_index_consistency (rs : List StoredItem) (r : StoredItem)
    (hr : r ∈ rs) :
    (∀ cv ct, (cv, ct) ∈ r.codes →
      r ∈ findByCode (buildDataset rs) cv (some ct)) ∧
    (∀ t, t ∈ wordRuns (pyLower (pyStrip r.description)).data → 3 ≤ t.length →
      r ∈ searchByKeywords (buildDataset rs) [String.mk t]) := by
  obtain ⟨p, hlt, hget, hcodes, hwords⟩ :=
    buildDataset_indexed rs HospitalDataset.empty r hr
  constructor
  · intro cv ct hct
    rw [findByCode]
    exact List.mem_map.mpr ⟨p, (hcodes cv ct hct).1, hget⟩
  · intro t ht hlen
    have hp := hwords t ht hlen
    have hfix := token_fixed (s := pyStrip r.description) ht
    rw [search_singleton (buildDataset rs) ⟨t⟩ hfix.1 (by rw [hfix.2]; exact hlen)]
    have hne : (buildDataset rs).word_index ⟨t⟩ ≠ [] :=
      List.ne_nil_of_mem hp
    rw [if_neg (by simpa [List.isEmpty_iff] using hne)]
    exact List.mem_map.mpr ⟨p, hp, hget⟩

/-- Witness for C6 on a one-record collection: the record is found by its CPT
code and by the token `hello` of its description. -/
theorem C6_index_consistency_witness :
    (⟨0, "hello world", [("A1", "CPT")], [5]⟩ : StoredItem) ∈
      findByCode (buildDataset [⟨0, "hello world", [("A1", "CPT")], [5]⟩])
        "A1" (some "CPT") ∧
    (⟨0, "hello world", [("A1", "CPT")], [5]⟩ : StoredItem) ∈
      searchByKeywords (buildDataset [⟨0, "hello world", [("A1", "CPT")], [5]⟩])
        [String.mk "hello".data] := by
  have h := C6_index_consistency
    [⟨0, "hello world", [("A1", "CPT")], [5]⟩]
    ⟨0, "hello world", [("A1", "CPT")], [5]⟩ (by decide)
  exact ⟨h.1 "A1" "CPT" (by decide), h.2 "hello".data (by decide) (by decide)⟩

/-! Characterization of the keyword-search fold. -/

theorem searchFold_some (ds : HospitalDataset) :
    ∀ (kws : List String) (m : List Nat),
      ∃ m', List.foldl (searchStep ds) (some m) kws = some m' ∧
        ∀ p, p ∈ m' ↔
          (p ∈ m ∧ ∀ k ∈ processedKeywords kws, p ∈ ds.word_index k)
  | [], m => ⟨m, rfl, by simp [processedKeywords]⟩
  | kw :: kws, m => by
    by_cases hlen : 3 ≤ (pyStrip (pyLower kw)).length
    · have hstep : searchStep ds (some m) kw =
          some (m.filter (fun i => i ∈ ds.word_index (pyStrip (pyLower kw)))) := by
        simp [searchStep, hlen]
      obtain ⟨m', hm', hiff⟩ := searchFold_some ds kws
        (m.filter (fun i => i ∈ ds.word_index (pyStrip (pyLower kw))))
      refine ⟨m', by rw [List.foldl_cons, hstep]; exact hm', fun p => ?_⟩
      rw [hiff p]
      have hproc : processedKeywords (kw :: kws) =
          pyStrip (pyLower kw) :: processedKeywords kws := by
        simp [processedKeywords, hlen]
      rw [hproc]
      simp only [List.mem_filter, List.forall_mem_cons, decide_eq_true_eq]
      tauto
    · have hstep : searchStep ds (some m) kw = some m := by
        simp [searchStep, hlen]
      obtain ⟨m', hm', hiff⟩ := searchFold_some ds kws m
      refine ⟨m', by rw [List.foldl_cons, hstep]; exact hm', fun p => ?_⟩
      rw [hiff p]
      have hproc : processedKeywords (kw :: kws) = processedKeywords kws := by
        simp [processedKeywords, hlen]
      rw [hproc]

theorem searchFold_none (ds : HospitalDataset) :
    ∀ kws : List String,
      (processedKeywords kws = [] ∧
        List.foldl (searchStep ds) none kws = none) ∨
      (∃ m', List.foldl (searchStep ds) none kws = some m' ∧
        ∀ p, p ∈ m' ↔ (processedKeywords kws ≠ [] ∧
          ∀ k ∈ processedKeywords kws, p ∈ ds.word_index k))
  | [] => Or.inl ⟨by simp [processedKeywords], rfl⟩
  | kw :: kws => by
    by_cases hlen : 3 ≤ (pyStrip (pyLower kw)).length
    · have hstep : searchStep ds none kw =
          some (ds.word_index (pyStrip (pyLower kw))) := by
        simp [searchStep, hlen]
      obtain ⟨m', hm', hiff⟩ := searchFold_some ds kws
        (ds.word_index (pyStrip (pyLower kw)))
      right
      refine ⟨m', by rw [List.foldl_cons, hstep]; exact hm', fun p => ?_⟩
      rw [hiff p]
      have hproc : processedKeywords (kw :: kws) =
          pyStrip (pyLower kw) :: processedKeywords kws := by
        simp [processedKeywords, hlen]
      rw [hproc]
      simp only [List.forall_mem_cons, ne_eq, reduceCtorEq, not_false_eq_true,
        true_and]
    · have hstep : searchStep ds none kw = none := by
        simp [searchStep, hlen]
      have hproc : processedKeywords (kw :: kws) = processedKeywords kws := by
        simp [processedKeywords, hlen]
      rcases searchFold_none ds kws with ⟨h1, h2⟩ | ⟨m', hm', hiff⟩
      · exact Or.inl ⟨by rw [hproc]; exact h1,
          by rw [List.foldl_cons, hstep]; exact h2⟩
      · exact Or.inr ⟨m', by rw [List.foldl_cons, hstep]; exact hm',
          by rw [hproc]; exact hiff⟩

/-- C7 (amended).  Keyword-search semantics: the result consists exactly of
the records at positions lying in every posting set of the processed keywords
of length at least 3; keywords shorter than 3 are ignored, and when no
keyword reaches length 3 the result is empty. -/
theorem C7_keyword_search (ds : HospitalDataset) (keywords : List String)
    (x : StoredItem) :
    x ∈ searchByKeywords ds keywords ↔
      ∃ p, processedKeywords keywords ≠ [] ∧
        (∀ k ∈ processedKeywords keywords, p ∈ ds.word_index k) ∧
        ds.items.getD p default = x := by
  rcases searchFold_none ds keywords with ⟨hproc, hfold⟩ | ⟨m', hfold, hiff⟩
  · simp only [searchByKeywords, hfold]
    simp [hproc]
  · simp only [searchByKeywords, hfold]
    by_cases hemp : m' = []
    · subst hemp
      simp only [List.isEmpty_nil, if_pos]
      constructor
      · intro hx
        simp at hx
      · rintro ⟨p, hne, hall, _⟩
        have : p ∈ ([] : List Nat) := (hiff p).mpr ⟨hne, hall⟩
        simp at this
    · rw [if_neg (by simpa [List.isEmpty_iff] using hemp)]
      rw [List.mem_map]
      constructor
      · rintro ⟨p, hp, hx⟩
        obtain ⟨hne, hall⟩ := (hiff p).mp hp
        exact ⟨p, hne, hall, hx⟩
      · rintro ⟨p, hne, hall, hx⟩
        exact ⟨p, (hiff p).mpr ⟨hne, hall⟩, hx⟩

/-- Witness for C7 on a one-record collection: searching `["mri", "scan"]`
returns the record, both keywords having length at least 3. -/
theorem C7_keyword_search_witness :
    (⟨0, "mri scan", [("70551", "CPT")], [5]⟩ : StoredItem) ∈
      searchByKeywords (buildDataset [⟨0, "mri scan", [("70551", "CPT")], [5]⟩])
        ["mri", "scan"] :=
  (C7_keyword_search
    (buildDataset [⟨0, "mri scan", [("70551", "CPT")], [5]⟩])
    ["mri", "scan"] ⟨0, "mri scan", [("70551", "CPT")], [5]⟩).mpr
    ⟨0, by decide, by decide, by decide⟩

/-- Counterexample to C7 as stated: with a keyword of length 2 present the
claim demands an empty result, but the search ignores the short keyword and
returns the record matching `mri`. -/
theorem C7_counterexample :
    searchByKeywords (buildDataset [⟨0, "mri scan", [("70551", "CPT")], [5]⟩])
      ["mri", "zz"] = [⟨0, "mri scan", [("70551", "CPT")], [5]⟩] := by decide

/-- C5 (amended).  Malformed-record rejection happens in the ingestion loop
`build_hospital_dataset`, before `add_item` is reached: every record stored
in a built dataset has a nonempty description, at least one code, and at
least one price, all of whose amounts are strictly positive — so a record
with an empty description or without a positive price is never indexed; the
loop is total (it skips and counts instead of raising). -/
theorem C5_malformed_rejected (raws : List RawItem) (r : StoredItem)
    (hr : r ∈ (buildHospitalDataset raws).1.items) :
    r.description ≠ "" ∧ r.codes ≠ [] ∧ r.prices ≠ [] ∧
      ∀ p ∈ r.prices, 0 < p := by
  have key : ∀ (l : List (Nat × RawItem)) (st : HospitalDataset × Nat × Nat),
      (∀ x ∈ st.1.items, x.description ≠ "" ∧ x.codes ≠ [] ∧ x.prices ≠ [] ∧
        ∀ p ∈ x.prices, 0 < p) →
      ∀ x ∈ (l.foldl buildStep st).1.items,
        x.description ≠ "" ∧ x.codes ≠ [] ∧ x.prices ≠ [] ∧
        ∀ p ∈ x.prices, 0 < p := by
    intro l
    induction l with
    | nil => intro st h x hx; exact h x hx
    | cons a l ih =>
      intro st h
      rw [List.foldl_cons]
      apply ih
      rw [buildStep]
      split
      · exact h
      · dsimp only
        split
        · rename_i hdesc hcp
          intro x hx
          rw [addItem_items] at hx
          rcases List.mem_append.mp hx with hx | hx
          · exact h x hx
          · simp only [List.mem_singleton] at hx
            subst hx
            refine ⟨hdesc, hcp.1, hcp.2, ?_⟩
            intro p hp
            revert hp
            have hgen : ∀ (chs : List RawCharge) (acc : List Rat),
                (∀ q ∈ acc, 0 < q) →
                ∀ q ∈ chs.foldl (fun acc ch =>
                  match ch.gross_charge with
                  | some price => if 0 < price then acc ++ [price] else acc
                  | none => acc) acc, 0 < q := by
              intro chs
              induction chs with
              | nil => intro acc h q hq; exact h q hq
              | cons c chs ihc =>
                intro acc h
                rw [List.foldl_cons]
                apply ihc
                rcases hc : c.gross_charge with _ | v
                · simpa [hc] using h
                · simp only [hc]
                  split
                  · intro q hq
                    rcases List.mem_append.mp hq with hq | hq
                    · exact h q hq
                    · simp only [List.mem_singleton] at hq
                      subst hq
                      assumption
                  · exact h
            intro hp
            exact hgen a.2.standard_charges [] (by simp) p hp
        · exact h
  exact key raws.enum (HospitalDataset.empty, 0, 0) (by simp [HospitalDataset.empty]) r hr

/-- Witness for C5 at a concrete one-item ingestion run. -/
theorem C5_malformed_rejected_witness :
    (⟨0, "aspirin 81mg", [("X1", "CPT")], [4]⟩ : StoredItem).description ≠ "" ∧
    (⟨0, "aspirin 81mg", [("X1", "CPT")], [4]⟩ : StoredItem).codes ≠ [] ∧
    (⟨0, "aspirin 81mg", [("X1", "CPT")], [4]⟩ : StoredItem).prices ≠ [] ∧
    ∀ p ∈ (⟨0, "aspirin 81mg", [("X1", "CPT")], [4]⟩ : StoredItem).prices,
      0 < p :=
  C5_malformed_rejected
    [⟨" aspirin 81mg ", [⟨some "X1", some "CPT"⟩], [⟨some 4⟩]⟩]
    ⟨0, "aspirin 81mg", [("X1", "CPT")], [4]⟩ (by decide)

/-- Counterexample to C5 as stated: `add_item` itself rejects nothing — a
record with an empty description and no price is appended to the collection
and indexed under its code, and `add_item` reports no rejection. -/
theorem C5_counterexample :
    (addItem HospitalDataset.empty ⟨0, "", [("99213", "CPT")], []⟩).items =
      [⟨0, "", [("99213", "CPT")], []⟩] ∧
    (⟨0, "", [("99213", "CPT")], []⟩ : StoredItem) ∈
      findByCode (addItem HospitalDataset.empty ⟨0, "", [("99213", "CPT")], []⟩)
        "99213" (some "CPT") := by decide

/-- C10.  Code-lookup multiplicity: `find_by_code` returns one entry per
stored code occurrence, not per distinct record — a record listing the same
code under two types is returned twice by the bare-value lookup, and a record
repeating one `(code, type)` pair is returned twice by the typed lookup. -/
theorem C10_lookup_multiplicity :
    findByCode
      (buildDataset [⟨0, "acetaminophen tab",
        [("J1200", "CPT"), ("J1200", "HCPCS")], [2]⟩])
      "J1200" none =
      [⟨0, "acetaminophen tab", [("J1200", "CPT"), ("J1200", "HCPCS")], [2]⟩,
       ⟨0, "acetaminophen tab", [("J1200", "CPT"), ("J1200", "HCPCS")], [2]⟩] ∧
    findByCode
      (buildDataset [⟨0, "chest x-ray", [("71045", "CPT"), ("71045", "CPT")],
        [3]⟩])
      "71045" (some "CPT") =
      [⟨0, "chest x-ray", [("71045", "CPT"), ("71045", "CPT")], [3]⟩,
       ⟨0, "chest x-ray", [("71045", "CPT"), ("71045", "CPT")], [3]⟩] := by
  decide

/-! Facts about the insertion-ordered bucketing and the hash-map matcher. -/

theorem bucketBy_inv {α : Type} (key : α → String) (items : List α) :
    (∀ b ∈ bucketBy key items, b.2 ≠ [] ∧ ∀ x ∈ b.2, key x = b.1) ∧
    ((bucketBy key items).map (fun b => b.1)).Nodup := by
  suffices h : ∀ (l : List α) (bs : List (String × List α)),
      ((∀ b ∈ bs, b.2 ≠ [] ∧ ∀ x ∈ b.2, key x = b.1) ∧
        (bs.map (fun b => b.1)).Nodup) →
      ((∀ b ∈ l.foldl (fun bs it =>
          if bs.any (fun b => b.1 = key it) then
            bs.map (fun b => if b.1 = key it then (b.1, b.2 ++ [it]) else b)
          else bs ++ [(key it, [it])]) bs,
        b.2 ≠ [] ∧ ∀ x ∈ b.2, key x = b.1) ∧
        ((l.foldl (fun bs it =>
          if bs.any (fun b => b.1 = key it) then
            bs.map (fun b => if b.1 = key it then (b.1, b.2 ++ [it]) else b)
          else bs ++ [(key it, [it])]) bs).map (fun b => b.1)).Nodup) by
    exact h items [] ⟨by simp, by simp⟩
  intro l
  induction l with
  | nil => intro bs h; exact h
  | cons a l ih =>
    intro bs ⟨hsound, hnodup⟩
    rw [List.foldl_cons]
    apply ih
    split
    · constructor
      · intro b hb
        obtain ⟨b0, hb0, hbeq⟩ := List.mem_map.mp hb
        by_cases hk : b0.1 = key a
        · rw [if_pos hk] at hbeq
          subst hbeq
          refine ⟨by simp, ?_⟩
          intro x hx
          rcases List.mem_append.mp hx with hx | hx
          · exact (hsound b0 hb0).2 x hx
          · simp only [List.mem_singleton] at hx
            subst hx
            exact hk.symm
        · rw [if_neg hk] at hbeq
          subst hbeq
          exact hsound b0 hb0
      · have : ((bs.map (fun b => if b.1 = key a then (b.1, b.2 ++ [a]) else b)).map
            (fun b => b.1)) = bs.map (fun b => b.1) := by
          rw [List.map_map]
          apply List.map_congr_left
          intro b _
          by_cases hk : b.1 = key a
          · simp [hk]
          · simp [hk]
        rw [this]
        exact hnodup
    · constructor
      · intro b hb
        rcases List.mem_append.mp hb with hb | hb
        · exact hsound b hb
        · simp only [List.mem_singleton] at hb
          subst hb
          exact ⟨by simp, by simp⟩
      · rw [List.map_append]
        rename_i hany
        simp only [List.any_eq_true, not_exists, not_and] at hany
        simp only [List.map_cons, List.map_nil]
        rw [List.nodup_append]
        refine ⟨hnodup, List.nodup_singleton _, ?_⟩
        intro y hy
        obtain ⟨b0, hb0, hbeq⟩ := List.mem_map.mp hy
        simp only [List.mem_singleton]
        intro hcon
        subst hcon
        have hno : ¬ b0.1 = key a := by simpa using hany b0 hb0
        exact hno hbeq

theorem bucketBy_le_one {α : Type} (key : α → String) (items : List α)
    (h0 : String) (hh : ∀ x ∈ items, key x = h0) :
    (bucketBy key items).length ≤ 1 := by
  suffices h : ∀ (l : List α) (bs : List (String × List α)),
      (∀ x ∈ l, key x = h0) → bs.length ≤ 1 → (∀ b ∈ bs, b.1 = h0) →
      ((l.foldl (fun bs it =>
          if bs.any (fun b => b.1 = key it) then
            bs.map (fun b => if b.1 = key it then (b.1, b.2 ++ [it]) else b)
          else bs ++ [(key it, [it])]) bs).length ≤ 1 ∧
        (∀ b ∈ l.foldl (fun bs it =>
          if bs.any (fun b => b.1 = key it) then
            bs.map (fun b => if b.1 = key it then (b.1, b.2 ++ [it]) else b)
          else bs ++ [(key it, [it])]) bs, b.1 = h0)) by
    exact (h items [] hh (by simp) (by simp)).1
  intro l
  induction l with
  | nil => intro bs _ h1 h2; exact ⟨h1, h2⟩
  | cons a l ih =>
    intro bs hl h1 h2
    rw [List.foldl_cons]
    apply ih
    · intro x hx; exact hl x (List.mem_cons_of_mem a hx)
    · split
      · simpa using h1
      · rename_i hany
        simp only [List.any_eq_true, not_exists, not_and] at hany
        match bs, h1 with
        | [], _ => simp
        | [b], _ =>
          exfalso
          have hb := h2 b (by simp)
          have ha := hl a (by simp)
          have hno : ¬ b.1 = key a := by simpa using hany b (by simp)
          exact hno (by rw [hb, ha])
    · split
      · intro b hb
        obtain ⟨b0, hb0, hbeq⟩ := List.mem_map.mp hb
        have := h2 b0 hb0
        by_cases hk : b0.1 = key a
        · rw [if_pos hk] at hbeq; subst hbeq; exact this
        · rw [if_neg hk] at hbeq; subst hbeq; exact this
      · intro b hb
        rcases List.mem_append.mp hb with hb | hb
        · exact h2 b hb
        · simp only [List.mem_singleton] at hb
          subst hb
          exact hl a (by simp)

theorem maxByDescLen_mem (l : List HashItem) (hne : l ≠ []) :
    maxByDescLen l ∈ l := by
  match l, hne with
  | x :: xs, _ =>
    rw [maxByDescLen]
    suffices h : ∀ (ys : List HashItem) (best : HashItem),
        ys.foldl (fun best it =>
          if best.description.length < it.description.length then it else best)
          best = best ∨
        ys.foldl (fun best it =>
          if best.description.length < it.description.length then it else best)
          best ∈ ys by
      rcases h xs x with h | h
      · rw [h]; simp
      · exact List.mem_cons_of_mem x h
    intro ys
    induction ys with
    | nil => intro best; exact Or.inl rfl
    | cons y ys ihy =>
      intro best
      rw [List.foldl_cons]
      rcases ihy (if best.description.length < y.description.length then y
        else best) with h | h
      · rw [h]
        split
        · exact Or.inr (by simp)
        · exact Or.inl rfl
      · exact Or.inr (List.mem_cons_of_mem y h)

theorem findCodeMatches_fold_mem (code_to_items : List (String × List HashItem))
    (m : CodeMatch)
    (hm : m ∈ code_to_items.foldl (fun acc ci =>
      let hospitals_with_items := bucketBy (fun it => it.hospital) ci.2
      if 2 ≤ hospitals_with_items.length then
        acc ++ [{ code := ci.1,
                  items := hospitals_with_items.map (fun b => maxByDescLen b.2),
                  hospital_count := hospitals_with_items.length,
                  total_items := ci.2.length }]
      else acc) []) :
    ∃ ci ∈ code_to_items, 2 ≤ (bucketBy (fun it => it.hospital) ci.2).length ∧
      m.items = (bucketBy (fun it => it.hospital) ci.2).map
        (fun b => maxByDescLen b.2) := by
  suffices h : ∀ (l : List (String × List HashItem)) (acc : List CodeMatch),
      m ∈ l.foldl (fun acc ci =>
        let hospitals_with_items := bucketBy (fun it => it.hospital) ci.2
        if 2 ≤ hospitals_with_items.length then
          acc ++ [{ code := ci.1,
                    items := hospitals_with_items.map (fun b => maxByDescLen b.2),
                    hospital_count := hospitals_with_items.length,
                    total_items := ci.2.length }]
        else acc) acc →
      m ∈ acc ∨ ∃ ci ∈ l, 2 ≤ (bucketBy (fun it => it.hospital) ci.2).length ∧
        m.items = (bucketBy (fun it => it.hospital) ci.2).map
          (fun b => maxByDescLen b.2) by
    rcases h code_to_items [] hm with hc | hc
    · simp at hc
    · exact hc
  intro l
  induction l with
  | nil => intro acc h; exact Or.inl h
  | cons ci l ih =>
    intro acc h
    rw [List.foldl_cons] at h
    rcases ih _ h with hc | ⟨ci', hci', hc⟩
    · dsimp only at hc
      split at hc
      · rcases List.mem_append.mp hc with hc | hc
        · exact Or.inl hc
        · simp only [List.mem_singleton] at hc
          subst hc
          exact Or.inr ⟨ci, by simp, by assumption, rfl⟩
      · exact Or.inl hc
    · exact Or.inr ⟨ci', List.mem_cons_of_mem ci hci', hc⟩

theorem findCodeMatches_fold_uniform
    (code_to_items : List (String × List HashItem))
    (h0 : String)
    (hh : ∀ ci ∈ code_to_items, ∀ it ∈ ci.2, it.hospital = h0) :
    code_to_items.foldl (fun acc ci =>
      let hospitals_with_items := bucketBy (fun it => it.hospital) ci.2
      if 2 ≤ hospitals_with_items.length then
        acc ++ [{ code := ci.1,
                  items := hospitals_with_items.map (fun b => maxByDescLen b.2),
                  hospital_count := hospitals_with_items.length,
                  total_items := ci.2.length }]
      else acc) ([] : List CodeMatch) = [] := by
  suffices h : ∀ (l : List (String × List HashItem)) (acc : List CodeMatch),
      (∀ ci ∈ l, ∀ it ∈ ci.2, it.hospital = h0) →
      l.foldl (fun acc ci =>
        let hospitals_with_items := bucketBy (fun it => it.hospital) ci.2
        if 2 ≤ hospitals_with_items.length then
          acc ++ [{ code := ci.1,
                    items := hospitals_with_items.map (fun b => maxByDescLen b.2),
                    hospital_count := hospitals_with_items.length,
                    total_items := ci.2.length }]
        else acc) acc = acc by
    exact h code_to_items [] hh
  intro l
  induction l with
  | nil => intro acc _; rfl
  | cons ci l ih =>
    intro acc hl
    rw [List.foldl_cons]
    have hle := bucketBy_le_one (fun it => it.hospital) ci.2 h0
      (hl ci (by simp))
    dsimp only
    rw [if_neg (by omega)]
    exact ih acc (fun ci' hci' => hl ci' (List.mem_cons_of_mem ci hci'))

/-- C2.  Group source-count invariant: every group emitted by
`find_code_matches` spans at least two distinct hospitals, and when all the
indexed items come from a single source (at most one collection loaded), the
returned sequence is empty. -/
theorem C2_group_sources (code_to_items : List (String × List HashItem)) :
    (∀ m ∈ findCodeMatches code_to_items,
      2 ≤ ((m.items.map (fun it => it.hospital)).dedup).length) ∧
    ((∃ h0, ∀ ci ∈ code_to_items, ∀ it ∈ ci.2, it.hospital = h0) →
      findCodeMatches code_to_items = []) := by
  constructor
  · intro m hm
    rw [findCodeMatches] at hm
    rw [List.mem_mergeSort] at hm
    obtain ⟨ci, _, hlen, hitems⟩ := findCodeMatches_fold_mem code_to_items m hm
    obtain ⟨hsound, hnodup⟩ := bucketBy_inv (fun it => it.hospital) ci.2
    have hkeys : m.items.map (fun it => it.hospital) =
        (bucketBy (fun it => it.hospital) ci.2).map (fun b => b.1) := by
      rw [hitems, List.map_map]
      apply List.map_congr_left
      intro b hb
      have hb2 := hsound b hb
      exact hb2.2 _ (maxByDescLen_mem b.2 hb2.1)
    rw [hkeys, List.dedup_eq_self.mpr hnodup]
    rw [List.length_map]
    exact hlen
  · rintro ⟨h0, hh⟩
    rw [findCodeMatches, findCodeMatches_fold_uniform code_to_items h0 hh]
    exact List.mergeSort_nil

/-- Witness for C2: a single-hospital input produces no match groups. -/
theorem C2_group_sources_witness :
    findCodeMatches
      [("NDC_00002831501", [⟨"UCSF Medical Center", "insulin a"⟩,
                            ⟨"UCSF Medical Center", "insulin b"⟩])] = [] :=
  (C2_group_sources
    [("NDC_00002831501", [⟨"UCSF Medical Center", "insulin a"⟩,
                          ⟨"UCSF Medical Center", "insulin b"⟩])]).2
    ⟨"UCSF Medical Center", by decide⟩

/-! Facts about the price-aggregation fold of `find_cross_hospital_matches`. -/

theorem groupStep_inv {acc acc' : GroupAcc} {member : String × AppItem}
    (hst : groupStep acc member = some acc')
    (hinv : match acc.min_price with
      | none => acc.max_price = 0
      | some m => 0 < m ∧ m ≤ acc.max_price) :
    match acc'.min_price with
    | none => acc'.max_price = 0
    | some m => 0 < m ∧ m ≤ acc'.max_price := by
  rw [groupStep] at hst
  rcases hbp : bestPrice member.2 with _ | bp
  · rw [hbp] at hst; exact absurd hst (by simp)
  · rw [hbp] at hst
    dsimp only at hst
    by_cases hpos : 0 < bp
    · rw [if_pos hpos] at hst
      simp only [Option.some_inj] at hst
      subst hst
      dsimp only
      rcases hmin : acc.min_price with _ | m
      · exact ⟨hpos, le_max_right _ _⟩
      · rw [hmin] at hinv
        replace hinv : 0 < m ∧ m ≤ acc.max_price := hinv
        refine ⟨lt_min hinv.1 hpos, ?_⟩
        calc min m bp ≤ m := min_le_left _ _
          _ ≤ acc.max_price := hinv.2
          _ ≤ max acc.max_price bp := le_max_left _ _
    · rw [if_neg hpos] at hst
      simp only [Option.some_inj] at hst
      subst hst
      exact hinv

theorem accumGroup_inv :
    ∀ (members : List (String × AppItem)) (acc0 acc : GroupAcc),
      List.foldlM groupStep acc0 members = some acc →
      (match acc0.min_price with
        | none => acc0.max_price = 0
        | some m => 0 < m ∧ m ≤ acc0.max_price) →
      (match acc.min_price with
        | none => acc.max_price = 0
        | some m => 0 < m ∧ m ≤ acc.max_price)
  | [], acc0, acc, hf, hinv => by
    simp only [List.foldlM_nil, Option.pure_def, Option.some_inj] at hf
    subst hf
    exact hinv
  | mem :: ms, acc0, acc, hf, hinv => by
    rw [List.foldlM_cons] at hf
    obtain ⟨acc1, h1, h2⟩ := Option.bind_eq_some.mp hf
    exact accumGroup_inv ms acc1 acc h2 (groupStep_inv h1 hinv)

/-- C3.  Spread formula: every emitted group summary has
`spread = maxPrice - minPrice`, `spreadPercent = 100 * spread / minPrice`
when `minPrice > 0` and 0 otherwise, `spreadPercent` is never negative, and
on best prices 90 and 150 the spread is 60 with percent 200/3 ≈ 66.7. -/
theorem C3_spread_formula (members : List (String × AppItem)) (g : GroupSummary)
    (hg : summarizeGroup members = some (some g)) :
    g.price_spread = g.max_price - g.min_price ∧
    g.price_spread_percent =
      (if 0 < g.min_price then 100 * g.price_spread / g.min_price else 0) ∧
    0 ≤ g.price_spread_percent ∧
    summarizeGroup [("A", ⟨"a", [90]⟩), ("B", ⟨"b", [150]⟩)] =
      some (some ⟨90, 150, 60, 200/3, 2⟩) := by
  have hconc : summarizeGroup [("A", ⟨"a", [(90 : Rat)]⟩), ("B", ⟨"b", [150]⟩)] =
      some (some ⟨90, 150, 60, 200/3, 2⟩) := by
    have h1 : accumGroup [("A", ⟨"a", [(90 : Rat)]⟩), ("B", ⟨"b", [150]⟩)] =
        some ⟨some 90, 150, ["A", "B"]⟩ := by decide
    rw [summarizeGroup, h1, Option.map_some', finalizeGroup]
    norm_num
  rw [summarizeGroup] at hg
  obtain ⟨acc, hacc, hfin⟩ := Option.map_eq_some'.mp hg
  have hinv := accumGroup_inv members ⟨none, 0, []⟩ acc hacc (by simp)
  rw [finalizeGroup] at hfin
  split at hfin
  · rcases hmin : acc.min_price with _ | m
    · rw [hmin] at hinv hfin
      simp only [Option.getD_none] at hfin
      rw [if_neg (by simp [hinv])] at hfin
      simp only [Option.some_inj] at hfin
      subst hfin
      refine ⟨by simp [hinv], by simp, le_refl 0, hconc⟩
    · rw [hmin] at hinv hfin
      simp only [Option.getD_some] at hfin
      rw [if_pos ⟨lt_of_lt_of_le hinv.1 hinv.2, hinv.1⟩] at hfin
      simp only [Option.some_inj] at hfin
      subst hfin
      refine ⟨rfl, ?_, ?_, hconc⟩
      · show (acc.max_price - m) / m * 100 =
          if 0 < m then 100 * (acc.max_price - m) / m else 0
        rw [if_pos hinv.1]
        ring
      · show 0 ≤ (acc.max_price - m) / m * 100
        apply mul_nonneg
        · apply div_nonneg
          · linarith [hinv.2]
          · linarith [hinv.1]
        · norm_num
  · exact absurd hfin (by simp)

/-- Witness for C3 at the two-source group with best prices 90 and 150. -/
theorem C3_spread_formula_witness :
    ((⟨90, 150, 60, 200/3, 2⟩ : GroupSummary).price_spread =
      (⟨90, 150, 60, 200/3, 2⟩ : GroupSummary).max_price -
        (⟨90, 150, 60, 200/3, 2⟩ : GroupSummary).min_price) ∧
    0 ≤ (⟨90, 150, 60, 200/3, 2⟩ : GroupSummary).price_spread_percent := by
  have h := C3_spread_formula [("A", ⟨"a", [90]⟩), ("B", ⟨"b", [150]⟩)]
    ⟨90, 150, 60, 200/3, 2⟩
    (by
      have h1 : accumGroup [("A", ⟨"a", [(90 : Rat)]⟩), ("B", ⟨"b", [150]⟩)] =
          some ⟨some 90, 150, ["A", "B"]⟩ := by decide
      rw [summarizeGroup, h1, Option.map_some', finalizeGroup]
      norm_num)
  exact ⟨h.1, h.2.2.1⟩

/-! Facts about per-item best prices and the spec's per-source best prices. -/

theorem foldl_min_le (qs : List Rat) (q : Rat) :
    qs.foldl min q ≤ q ∧ ∀ p ∈ qs, qs.foldl min q ≤ p := by
  induction qs generalizing q with
  | nil => exact ⟨le_refl q, by simp⟩
  | cons x xs ih =>
    rw [List.foldl_cons]
    obtain ⟨h1, h2⟩ := ih (min q x)
    refine ⟨le_trans h1 (min_le_left _ _), ?_⟩
    intro p hp
    rcases List.mem_cons.mp hp with rfl | hp
    · exact le_trans h1 (min_le_right _ _)
    · exact h2 p hp

theorem foldl_min_mem (qs : List Rat) (q : Rat) :
    qs.foldl min q ∈ q :: qs := by
  induction qs generalizing q with
  | nil => simp
  | cons x xs ih =>
    rw [List.foldl_cons]
    rcases List.mem_cons.mp (ih (min q x)) with h | h
    · rw [h]
      rcases min_choice q x with h2 | h2 <;> rw [h2] <;> simp
    · exact List.mem_cons_of_mem _ (List.mem_cons_of_mem _ h)

theorem minD_mem {l : List Rat} (h : l ≠ []) : minD l ∈ l := by
  match l, h with
  | q :: qs, _ => exact foldl_min_mem qs q

theorem minD_le {l : List Rat} (p : Rat) (hp : p ∈ l) : minD l ≤ p := by
  match l, hp with
  | q :: qs, hp =>
    rcases List.mem_cons.mp hp with rfl | hp
    · exact (foldl_min_le qs p).1
    · exact (foldl_min_le qs q).2 p hp

/-- A successful `bestPrice` is either the 0 of an empty price list or the
least strictly-positive amount; nonpositive amounts are never selected. -/
theorem bestPrice_spec (item : AppItem) (q : Rat)
    (hq : bestPrice item = some q) :
    (item.prices = [] ∧ q = 0) ∨
    (q ∈ item.prices.filter (fun p => decide (0 < p)) ∧
      ∀ p ∈ item.prices.filter (fun p => decide (0 < p)), q ≤ p) := by
  rw [bestPrice] at hq
  split at hq
  · simp only [Option.some_inj] at hq
    exact Or.inl ⟨by assumption, hq.symm⟩
  · rcases hf : item.prices.filter (fun p => decide (0 < p)) with _ | ⟨x, xs⟩
    · rw [hf] at hq; exact absurd hq (by simp)
    · rw [hf] at hq
      simp only [Option.some_inj] at hq
      subst hq
      refine Or.inr ⟨?_, ?_⟩
      · exact foldl_min_mem xs x
      · intro p hp
        rcases List.mem_cons.mp hp with rfl | hp
        · exact (foldl_min_le xs p).1
        · exact (foldl_min_le xs x).2 p hp

theorem bestPrice_pos_mem {item : AppItem} {q : Rat}
    (hq : bestPrice item = some q) (hpos : 0 < q) :
    q ∈ item.prices.filter (fun p => decide (0 < p)) := by
  rcases bestPrice_spec item q hq with ⟨_, rfl⟩ | ⟨hmem, _⟩
  · exact absurd hpos (by norm_num)
  · exact hmem

theorem posBests_cons (mem : String × AppItem) (ms : List (String × AppItem)) :
    posBests (mem :: ms) = match bestPrice mem.2 with
      | some bp => if 0 < bp then bp :: posBests ms else posBests ms
      | none => posBests ms := rfl

theorem posBests_cons_none {mem : String × AppItem}
    {ms : List (String × AppItem)} (hbp : bestPrice mem.2 = none) :
    posBests (mem :: ms) = posBests ms := by
  rw [posBests_cons, hbp]

theorem posBests_cons_pos {mem : String × AppItem}
    {ms : List (String × AppItem)} {bp : Rat}
    (hbp : bestPrice mem.2 = some bp) (hpos : 0 < bp) :
    posBests (mem :: ms) = bp :: posBests ms := by
  rw [posBests_cons, hbp]
  exact if_pos hpos

theorem posBests_cons_nonpos {mem : String × AppItem}
    {ms : List (String × AppItem)} {bp : Rat}
    (hbp : bestPrice mem.2 = some bp) (hpos : ¬ 0 < bp) :
    posBests (mem :: ms) = posBests ms := by
  rw [posBests_cons, hbp]
  exact if_neg hpos

/-- Member positions of the positive per-item best prices. -/
theorem mem_posBests :
    ∀ (members : List (String × AppItem)) (b : Rat),
      b ∈ posBests members ↔
        ∃ m ∈ members, bestPrice m.2 = some b ∧ 0 < b
  | [], b => by simp [posBests]
  | mem :: ms, b => by
    have hrec := mem_posBests ms b
    rcases hbp : bestPrice mem.2 with _ | bp
    · rw [posBests_cons_none hbp, hrec]
      constructor
      · rintro ⟨m, hm, h⟩
        exact ⟨m, List.mem_cons_of_mem _ hm, h⟩
      · rintro ⟨m, hm, h1, h2⟩
        rcases List.mem_cons.mp hm with rfl | hm
        · rw [hbp] at h1
          cases h1
        · exact ⟨m, hm, h1, h2⟩
    · by_cases hpos : 0 < bp
      · rw [posBests_cons_pos hbp hpos]
        constructor
        · intro hb
          rcases List.mem_cons.mp hb with rfl | hb
          · exact ⟨mem, by simp, hbp, hpos⟩
          · obtain ⟨m, hm, h⟩ := hrec.mp hb
            exact ⟨m, List.mem_cons_of_mem _ hm, h⟩
        · rintro ⟨m, hm, h1, h2⟩
          rcases List.mem_cons.mp hm with rfl | hm
          · rw [hbp] at h1
            simp only [Option.some_inj] at h1
            subst h1
            simp
          · exact List.mem_cons_of_mem _ (hrec.mpr ⟨m, hm, h1, h2⟩)
      · rw [posBests_cons_nonpos hbp hpos, hrec]
        constructor
        · rintro ⟨m, hm, h⟩
          exact ⟨m, List.mem_cons_of_mem _ hm, h⟩
        · rintro ⟨m, hm, h1, h2⟩
          rcases List.mem_cons.mp hm with rfl | hm
          · rw [hbp] at h1
            simp only [Option.some_inj] at h1
            subst h1
            exact absurd h2 hpos
          · exact ⟨m, hm, h1, h2⟩

theorem mem_posAmounts (members : List (String × AppItem)) (a : Rat) :
    a ∈ posAmounts members ↔
      (0 < a ∧ ∃ m ∈ members, a ∈ m.2.prices) := by
  rw [posAmounts]
  simp only [List.mem_filter, List.mem_flatMap, decide_eq_true_eq]
  tauto

/-- Every positive per-item best price is one of the group's positive
amounts. -/
theorem posBests_subset_posAmounts (members : List (String × AppItem))
    (b : Rat) (hb : b ∈ posBests members) : b ∈ posAmounts members := by
  obtain ⟨m, hm, hbp, hpos⟩ := (mem_posBests members b).mp hb
  have hmem := bestPrice_pos_mem hbp hpos
  rw [List.mem_filter] at hmem
  exact (mem_posAmounts members b).mpr ⟨hpos, m, hm, hmem.1⟩

/-- Every positive amount is bounded below by some positive per-item best. -/
theorem posAmounts_bounded (members : List (String × AppItem)) (a : Rat)
    (ha : a ∈ posAmounts members) :
    ∃ b ∈ posBests members, b ≤ a := by
  obtain ⟨hpos, m, hm, hmem⟩ := (mem_posAmounts members a).mp ha
  have hfmem : a ∈ m.2.prices.filter (fun p => decide (0 < p)) :=
    List.mem_filter.mpr ⟨hmem, by simpa using hpos⟩
  have hne : m.2.prices.filter (fun p => decide (0 < p)) ≠ [] :=
    List.ne_nil_of_mem hfmem
  have hnep : m.2.prices ≠ [] := by
    intro hcon
    rw [hcon] at hne
    simp at hne
  have hbp : bestPrice m.2 =
      some (minD (m.2.prices.filter (fun p => decide (0 < p)))) := by
    rw [bestPrice, if_neg (by simpa using hnep)]
    rcases hf : m.2.prices.filter (fun p => decide (0 < p)) with _ | ⟨x, xs⟩
    · exact absurd hf hne
    · rfl
  set b := minD (m.2.prices.filter (fun p => decide (0 < p))) with hbdef
  have hbmem : b ∈ m.2.prices.filter (fun p => decide (0 < p)) := minD_mem hne
  have hbpos : 0 < b := by
    have := List.mem_filter.mp hbmem
    simpa using this.2
  refine ⟨b, (mem_posBests members b).mpr ⟨m, hm, hbp, hbpos⟩, minD_le a hfmem⟩

/-- Every positive per-source best is one of the group's positive amounts. -/
theorem specBests_subset_posAmounts (members : List (String × AppItem))
    (s : Rat) (hs : s ∈ (specSourceBests members).filter (fun b => decide (0 < b))) :
    s ∈ posAmounts members := by
  rw [List.mem_filter] at hs
  obtain ⟨hmem, hposd⟩ := hs
  have hpos : 0 < s := by simpa using hposd
  rw [specSourceBests] at hmem
  obtain ⟨src, _, hsrc⟩ := List.mem_map.mp hmem
  rw [specSourceBest] at hsrc
  rcases hf : ((members.filter (fun m => m.1 = src)).flatMap
      (fun m => m.2.prices)).filter (fun p => decide (0 < p)) with _ | ⟨x, xs⟩
  · rw [hf] at hsrc
    rw [← hsrc] at hpos
    exact absurd hpos (by simp [minD])
  · have hsm : s ∈ ((members.filter (fun m => m.1 = src)).flatMap
        (fun m => m.2.prices)).filter (fun p => decide (0 < p)) := by
      rw [← hsrc]
      exact minD_mem (by rw [hf]; simp)
    rw [List.mem_filter] at hsm
    obtain ⟨hsm1, hsm2⟩ := hsm
    obtain ⟨m, hm, hsp⟩ := List.mem_flatMap.mp hsm1
    exact (mem_posAmounts members s).mpr
      ⟨by simpa using hsm2, m, (List.mem_filter.mp hm).1, hsp⟩

/-- Every positive amount is bounded below by some positive per-source
best. -/
theorem specBests_bounded (members : List (String × AppItem)) (a : Rat)
    (ha : a ∈ posAmounts members) :
    ∃ s ∈ (specSourceBests members).filter (fun b => decide (0 < b)), s ≤ a := by
  obtain ⟨hpos, m, hm, hmem⟩ := (mem_posAmounts members a).mp ha
  set src := m.1 with hsrcdef
  have hsrcmem : src ∈ groupSources members := by
    rw [groupSources, List.mem_dedup]
    exact List.mem_map.mpr ⟨m, hm, rfl⟩
  have hasrc : a ∈ ((members.filter (fun x => x.1 = src)).flatMap
      (fun x => x.2.prices)).filter (fun p => decide (0 < p)) := by
    rw [List.mem_filter]
    refine ⟨List.mem_flatMap.mpr ⟨m, List.mem_filter.mpr ⟨hm, by simp⟩, hmem⟩,
      by simpa using hpos⟩
  have hne := List.ne_nil_of_mem hasrc
  have hsv : specSourceBest members src = minD (((members.filter
      (fun x => x.1 = src)).flatMap (fun x => x.2.prices)).filter
      (fun p => decide (0 < p))) := rfl
  have hsmem := minD_mem hne
  rw [← hsv] at hsmem
  have hspos : 0 < specSourceBest members src := by
    rw [hsv]
    have := List.mem_filter.mp (minD_mem hne)
    simpa using this.2
  refine ⟨specSourceBest members src, ?_, ?_⟩
  · rw [List.mem_filter]
    refine ⟨?_, by simpa using hspos⟩
    rw [specSourceBests]
    exact List.mem_map.mpr ⟨src, hsrcmem, rfl⟩
  · rw [hsv]
    exact minD_le a hasrc

/-- Two lists of rationals with mutual lower-bound covers share their
`minD`. -/
theorem minD_eq_of_covers {l₁ l₂ : List Rat}
    (h₁ : ∀ b ∈ l₁, b ∈ l₂ ∨ ∃ c ∈ l₂, c ≤ b)
    (h₂ : ∀ a ∈ l₂, ∃ b ∈ l₁, b ≤ a)
    (hsub : ∀ b ∈ l₁, b ∈ l₂) :
    minD l₁ = minD l₂ := by
  rcases hq1 : l₁ with _ | ⟨x, xs⟩
  · rcases hq2 : l₂ with _ | ⟨y, ys⟩
    · rfl
    · exfalso
      obtain ⟨b, hb, _⟩ := h₂ y (by rw [hq2]; simp)
      rw [hq1] at hb
      simp at hb
  · rcases hq2 : l₂ with _ | ⟨y, ys⟩
    · exfalso
      have := hsub x (by rw [hq1]; simp)
      rw [hq2] at this
      simp at this
    · rw [← hq1, ← hq2]
      apply le_antisymm
      · obtain ⟨b, hb, hble⟩ := h₂ (minD l₂) (minD_mem (by rw [hq2]; simp))
        exact le_trans (minD_le b hb) hble
      · exact minD_le (minD l₁)
          (hsub (minD l₁) (minD_mem (by rw [hq1]; simp)))

theorem minD_posBests_eq_posAmounts (members : List (String × AppItem)) :
    minD (posBests members) = minD (posAmounts members) :=
  minD_eq_of_covers
    (fun b hb => Or.inl (posBests_subset_posAmounts members b hb))
    (posAmounts_bounded members)
    (posBests_subset_posAmounts members)

theorem minD_specBests_eq_posAmounts (members : List (String × AppItem)) :
    minD ((specSourceBests members).filter (fun b => decide (0 < b))) =
      minD (posAmounts members) :=
  minD_eq_of_covers
    (fun s hs => Or.inl (specBests_subset_posAmounts members s hs))
    (specBests_bounded members)
    (specBests_subset_posAmounts members)

/-- The min/max accumulation of step 2, characterized by the positive
per-item best prices in order. -/
theorem accumGroup_minmax :
    ∀ (members : List (String × AppItem)) (acc0 acc : GroupAcc),
      List.foldlM groupStep acc0 members = some acc →
      acc.max_price = (posBests members).foldl max acc0.max_price ∧
      acc.min_price = (posBests members).foldl
        (fun o b => some (match o with | none => b | some m => min m b))
        acc0.min_price
  | [], acc0, acc, hf => by
    simp only [List.foldlM_nil, Option.pure_def, Option.some_inj] at hf
    subst hf
    simp [posBests]
  | mem :: ms, acc0, acc, hf => by
    rw [List.foldlM_cons] at hf
    obtain ⟨acc1, h1, h2⟩ := Option.bind_eq_some.mp hf
    obtain ⟨hmax, hmin⟩ := accumGroup_minmax ms acc1 acc h2
    rw [groupStep] at h1
    rcases hbp : bestPrice mem.2 with _ | bp
    · rw [hbp] at h1
      exact absurd h1 (by simp)
    · rw [hbp] at h1
      dsimp only at h1
      by_cases hpos : 0 < bp
      · rw [if_pos hpos] at h1
        simp only [Option.some_inj] at h1
        subst h1
        rw [posBests_cons_pos hbp hpos, List.foldl_cons, List.foldl_cons]
        exact ⟨hmax, hmin⟩
      · rw [if_neg hpos] at h1
        simp only [Option.some_inj] at h1
        subst h1
        rw [posBests_cons_nonpos hbp hpos]
        exact ⟨hmax, hmin⟩

theorem foldl_minstep_some :
    ∀ (qs : List Rat) (m : Rat),
      qs.foldl (fun o b => some (match o with | none => b | some m => min m b))
        (some m) = some (qs.foldl min m)
  | [], m => rfl
  | x :: xs, m => by
    rw [List.foldl_cons, List.foldl_cons]
    exact foldl_minstep_some xs (min m x)

theorem foldl_minstep_none (l : List Rat) :
    (l.foldl (fun o b => some (match o with | none => b | some m => min m b))
      none).getD 0 = minD l := by
  rcases l with _ | ⟨q, qs⟩
  · rfl
  · rw [List.foldl_cons]
    rw [foldl_minstep_some qs q]
    rfl

theorem foldl_max_zero_eq (l : List Rat) (hl : ∀ b ∈ l, 0 < b) :
    l.foldl max 0 = (match l with | [] => 0 | q :: qs => qs.foldl max q) := by
  rcases l with _ | ⟨q, qs⟩
  · rfl
  · rw [List.foldl_cons, max_eq_right (le_of_lt (hl q (by simp)))]

/-- C4 (amended).  Per-item best price and group extrema: an item's best
price is the least strictly-positive amount of its price entries (0 when it
has no entries; nonpositive amounts never selected); the group's `maxPrice`
is the maximum of the positive per-item best prices over all member
occurrences — not of the per-source bests — while its `minPrice` is their
minimum and coincides with the least positive per-source best price of the
spec; with no positive price anywhere both extrema are 0. -/
theorem C4_group_extrema (members : List (String × AppItem)) (acc : GroupAcc)
    (hacc : accumGroup members = some acc) :
    (∀ m ∈ members, ∀ q, bestPrice m.2 = some q →
      (m.2.prices = [] ∧ q = 0) ∨
      (q ∈ m.2.prices.filter (fun p => decide (0 < p)) ∧
        ∀ p ∈ m.2.prices.filter (fun p => decide (0 < p)), q ≤ p)) ∧
    acc.max_price = (posBests members).foldl max 0 ∧
    acc.min_price.getD 0 = minD (posBests members) ∧
    minD (posBests members) =
      minD ((specSourceBests members).filter (fun b => decide (0 < b))) := by
  obtain ⟨hmax, hmin⟩ := accumGroup_minmax members ⟨none, 0, []⟩ acc hacc
  refine ⟨fun m _ q hq => bestPrice_spec m.2 q hq, hmax, ?_, ?_⟩
  · rw [hmin]
    exact foldl_minstep_none (posBests members)
  · rw [minD_posBests_eq_posAmounts, minD_specBests_eq_posAmounts]

/-- Witness for C4 at a two-source group with best prices 10 and 30. -/
theorem C4_group_extrema_witness :
    (⟨some 10, 30, ["A", "B"]⟩ : GroupAcc).max_price =
      (posBests [("A", ⟨"a", [10]⟩), ("B", ⟨"b", [30]⟩)]).foldl max 0 ∧
    (⟨some 10, 30, ["A", "B"]⟩ : GroupAcc).min_price.getD 0 =
      minD (posBests [("A", ⟨"a", [10]⟩), ("B", ⟨"b", [30]⟩)]) := by
  have h := C4_group_extrema [("A", ⟨"a", [10]⟩), ("B", ⟨"b", [30]⟩)]
    ⟨some 10, 30, ["A", "B"]⟩ (by decide)
  exact ⟨h.2.1, h.2.2.1⟩

/-- Counterexample to C4 as stated: when source A carries two items with best
prices 10 and 50 and source B one item with 30, the code's `maxPrice` is 50,
the maximum over per-item bests, while the per-source best prices are 10 and
30 with maximum 30 — so `maxPrice` is not the maximum of per-source best
prices. -/
theorem C4_counterexample :
    summarizeGroup [("A", ⟨"a1", [10]⟩), ("A", ⟨"a2", [50]⟩),
        ("B", ⟨"b1", [30]⟩)] =
      some (some ⟨10, 50, 40, 400, 2⟩) ∧
    specSourceBests [("A", ⟨"a1", [10]⟩), ("A", ⟨"a2", [50]⟩),
        ("B", ⟨"b1", [30]⟩)] = [10, 30] ∧
    ([(10 : Rat), 30].foldl max 0 = 30) ∧ ((30 : Rat) ≠ 50) := by
  refine ⟨?_, by decide, ?_, by decide⟩
  · have h1 : accumGroup [("A", ⟨"a1", [(10 : Rat)]⟩), ("A", ⟨"a2", [50]⟩),
        ("B", ⟨"b1", [30]⟩)] = some ⟨some 10, 50, ["A", "B"]⟩ := by decide
    rw [summarizeGroup, h1, Option.map_some', finalizeGroup]
    norm_num
  · have : max (max (0 : Rat) 10) 30 = 30 := by
      rw [max_eq_right (by norm_num : (0:Rat) ≤ 10),
        max_eq_right (by norm_num : (10:Rat) ≤ 30)]
    simpa using this

/-! Region bounds for the embedded `SequenceMatcher`. -/

theorem flmInner_ok {alo ahi blo bhi i : Nat} (hi1 : alo ≤ i) (hi2 : i < ahi) :
    ∀ (js : List Nat) (j2len newj2len : Nat → Nat) (best : Nat × Nat × Nat),
      J2Ok alo blo i j2len → J2Ok alo blo (i + 1) newj2len →
      FlmOk alo ahi blo bhi best →
      J2Ok alo blo (i + 1) (flmInner blo bhi i js j2len newj2len best).1 ∧
      FlmOk alo ahi blo bhi (flmInner blo bhi i js j2len newj2len best).2
  | [], _, _, _, _, hnew, hbest => ⟨hnew, hbest⟩
  | j :: js, j2len, newj2len, best, hold, hnew, hbest => by
    rw [flmInner]
    by_cases h1 : j < blo
    · rw [if_pos h1]
      exact flmInner_ok hi1 hi2 js j2len newj2len best hold hnew hbest
    · rw [if_neg h1]
      by_cases h2 : bhi ≤ j
      · rw [if_pos h2]
        exact ⟨hnew, hbest⟩
      · rw [if_neg h2]
        dsimp only
        have hblo : blo ≤ j := Nat.le_of_not_lt h1
        have hbhi : j < bhi := Nat.lt_of_not_le h2
        set k := (if j = 0 then 0 else j2len (j - 1)) + 1 with hkdef
        have hk0 : 1 ≤ k := by rw [hkdef]; omega
        have hk1 : k ≤ i + 1 - alo := by
          rw [hkdef]
          split
          · omega
          · have := (hold (j - 1)).1
            omega
        have hk2 : k ≤ j + 1 - blo := by
          rw [hkdef]
          split
          · rename_i hj
            omega
          · rename_i hj
            have := (hold (j - 1)).2
            omega
        have hnew' : J2Ok alo blo (i + 1)
            (fun x => if x = j then k else newj2len x) := by
          intro x
          dsimp only
          by_cases hx : x = j
          · subst hx
            rw [if_pos rfl]
            exact ⟨hk1, hk2⟩
          · rw [if_neg hx]
            exact hnew x
        have hb' : FlmOk alo ahi blo bhi
            (if best.2.2 < k then (i + 1 - k, j + 1 - k, k) else best) := by
          split
          · obtain ⟨b1, b2, b3, b4⟩ := hbest
            refine ⟨?_, ?_, ?_, ?_⟩ <;> dsimp only <;> omega
          · exact hbest
        exact flmInner_ok hi1 hi2 js j2len _ _ hold hnew' hb'

theorem flmRows_ok (a b : List Char) {alo ahi blo bhi : Nat} :
    ∀ (n i0 : Nat) (j2len : Nat → Nat) (best : Nat × Nat × Nat),
      alo ≤ i0 → i0 + n ≤ ahi → J2Ok alo blo i0 j2len →
      FlmOk alo ahi blo bhi best →
      FlmOk alo ahi blo bhi
        (flmRows a b blo bhi (List.range' i0 n) j2len best)
  | 0, i0, j2len, best, _, _, _, hbest => hbest
  | n + 1, i0, j2len, best, h1, h2, hold, hbest => by
    have hr : List.range' i0 (n + 1) = i0 :: List.range' (i0 + 1) n := rfl
    rw [hr, flmRows]
    have hok := @flmInner_ok alo ahi blo bhi i0 h1 (by omega)
      (b2j b (a.getD i0 ' ')) j2len (fun _ => 0) best hold
      (fun j => ⟨Nat.zero_le _, Nat.zero_le _⟩) hbest
    exact flmRows_ok a b n (i0 + 1) _ _ (by omega) (by omega) hok.1 hok.2

theorem extendBack_ok (a b : List Char) {alo ahi blo bhi : Nat} :
    ∀ (fuel : Nat) (best : Nat × Nat × Nat),
      FlmOk alo ahi blo bhi best →
      FlmOk alo ahi blo bhi (extendBack a b alo blo fuel best)
  | 0, best, hbest => hbest
  | fuel + 1, best, hbest => by
    rw [extendBack]
    split
    · rename_i hcond
      apply extendBack_ok a b fuel
      obtain ⟨k1, k2, k3, k4⟩ := hbest
      refine ⟨?_, ?_, ?_, ?_⟩ <;> dsimp only <;> omega
    · exact hbest

theorem extendFwd_ok (a b : List Char) {alo ahi blo bhi : Nat} :
    ∀ (fuel : Nat) (best : Nat × Nat × Nat),
      FlmOk alo ahi blo bhi best →
      FlmOk alo ahi blo bhi (extendFwd a b ahi bhi fuel best)
  | 0, best, hbest => hbest
  | fuel + 1, best, hbest => by
    rw [extendFwd]
    split
    · rename_i hcond
      apply extendFwd_ok a b fuel
      obtain ⟨k1, k2, k3, k4⟩ := hbest
      refine ⟨?_, ?_, ?_, ?_⟩ <;> dsimp only <;> omega
    · exact hbest

theorem findLongestMatch_ok (a b : List Char) (alo ahi blo bhi : Nat)
    (h1 : alo ≤ ahi) (h2 : blo ≤ bhi) :
    FlmOk alo ahi blo bhi (findLongestMatch a b alo ahi blo bhi) := by
  rw [findLongestMatch]
  apply extendFwd_ok
  apply extendBack_ok
  apply flmRows_ok a b (ahi - alo) alo _ _ (le_refl alo) (by omega)
    (fun j => ⟨Nat.zero_le _, Nat.zero_le _⟩)
  exact ⟨le_refl alo, by simpa using h1, le_refl blo, by simpa using h2⟩

theorem matchesTotal_le (a b : List Char) :
    ∀ (fuel alo ahi blo bhi : Nat), alo ≤ ahi → blo ≤ bhi →
      matchesTotal a b fuel alo ahi blo bhi ≤ ahi - alo ∧
      matchesTotal a b fuel alo ahi blo bhi ≤ bhi - blo
  | 0, alo, ahi, blo, bhi, _, _ => ⟨Nat.zero_le _, Nat.zero_le _⟩
  | fuel + 1, alo, ahi, blo, bhi, h1, h2 => by
    obtain ⟨o1, o2, o3, o4⟩ := findLongestMatch_ok a b alo ahi blo bhi h1 h2
    rw [matchesTotal]
    by_cases hk : (findLongestMatch a b alo ahi blo bhi).2.2 = 0
    · rw [if_pos hk]
      exact ⟨Nat.zero_le _, Nat.zero_le _⟩
    · rw [if_neg hk]
      have hL : (if alo < (findLongestMatch a b alo ahi blo bhi).1 ∧
            blo < (findLongestMatch a b alo ahi blo bhi).2.1 then
          matchesTotal a b fuel alo (findLongestMatch a b alo ahi blo bhi).1
            blo (findLongestMatch a b alo ahi blo bhi).2.1 else 0) ≤
            (findLongestMatch a b alo ahi blo bhi).1 - alo ∧
          (if alo < (findLongestMatch a b alo ahi blo bhi).1 ∧
            blo < (findLongestMatch a b alo ahi blo bhi).2.1 then
          matchesTotal a b fuel alo (findLongestMatch a b alo ahi blo bhi).1
            blo (findLongestMatch a b alo ahi blo bhi).2.1 else 0) ≤
            (findLongestMatch a b alo ahi blo bhi).2.1 - blo := by
        split
        · exact matchesTotal_le a b fuel alo _ blo _ o1 o3
        · exact ⟨Nat.zero_le _, Nat.zero_le _⟩
      have hR : (if (findLongestMatch a b alo ahi blo bhi).1 +
            (findLongestMatch a b alo ahi blo bhi).2.2 < ahi ∧
            (findLongestMatch a b alo ahi blo bhi).2.1 +
            (findLongestMatch a b alo ahi blo bhi).2.2 < bhi then
          matchesTotal a b fuel ((findLongestMatch a b alo ahi blo bhi).1 +
            (findLongestMatch a b alo ahi blo bhi).2.2) ahi
            ((findLongestMatch a b alo ahi blo bhi).2.1 +
            (findLongestMatch a b alo ahi blo bhi).2.2) bhi else 0) ≤
            ahi - ((findLongestMatch a b alo ahi blo bhi).1 +
              (findLongestMatch a b alo ahi blo bhi).2.2) ∧
          (if (findLongestMatch a b alo ahi blo bhi).1 +
            (findLongestMatch a b alo ahi blo bhi).2.2 < ahi ∧
            (findLongestMatch a b alo ahi blo bhi).2.1 +
            (findLongestMatch a b alo ahi blo bhi).2.2 < bhi then
          matchesTotal a b fuel ((findLongestMatch a b alo ahi blo bhi).1 +
            (findLongestMatch a b alo ahi blo bhi).2.2) ahi
            ((findLongestMatch a b alo ahi blo bhi).2.1 +
            (findLongestMatch a b alo ahi blo bhi).2.2) bhi else 0) ≤
            bhi - ((findLongestMatch a b alo ahi blo bhi).2.1 +
              (findLongestMatch a b alo ahi blo bhi).2.2) := by
        split
        · rename_i hcond
          exact matchesTotal_le a b fuel _ _ _ _ (by omega) (by omega)
        · exact ⟨Nat.zero_le _, Nat.zero_le _⟩
      obtain ⟨l1, l2⟩ := hL
      obtain ⟨r1, r2⟩ := hR
      constructor <;> omega

/-- The embedded `ratio` always lies in `[0, 1]`. -/
theorem ratioChars_bounds (a b : List Char) :
    0 ≤ ratioChars a b ∧ ratioChars a b ≤ 1 := by
  rw [ratioChars]
  by_cases hT : a.length + b.length ≠ 0
  · rw [if_pos hT]
    obtain ⟨hM1, hM2⟩ := matchesTotal_le a b (a.length + b.length + 1)
      0 a.length 0 b.length (Nat.zero_le _) (Nat.zero_le _)
    have hMle : 2 * matchesTotal a b (a.length + b.length + 1)
        0 a.length 0 b.length ≤ a.length + b.length := by omega
    have hpos : (0 : Rat) < (a.length : Rat) + (b.length : Rat) := by
      have : 0 < a.length + b.length := Nat.pos_of_ne_zero hT
      exact_mod_cast this
    constructor
    · apply div_nonneg
      · positivity
      · linarith
    · rw [div_le_one hpos]
      calc 2 * ((matchesTotal a b (a.length + b.length + 1)
            0 a.length 0 b.length : Nat) : Rat)
          = ((2 * matchesTotal a b (a.length + b.length + 1)
            0 a.length 0 b.length : Nat) : Rat) := by push_cast; ring
        _ ≤ (((a.length + b.length : Nat)) : Rat) := by exact_mod_cast hMle
        _ = (a.length : Rat) + (b.length : Rat) := by push_cast; ring
  · rw [if_neg hT]
    norm_num

/-- C9 (amended).  The description similarity always lies in `[0, 1]`. -/
theorem C9_similarity_range (str1 str2 : String) :
    0 ≤ similarity_score str1 str2 ∧ similarity_score str1 str2 ≤ 1 :=
  ratioChars_bounds (pyLower str1).data (pyLower str2).data

/-- Evaluation helper: `ratio` through a computed match total. -/
theorem ratioChars_eval (a b : List Char) (M : Nat)
    (hM : matchesTotal a b (a.length + b.length + 1) 0 a.length 0 b.length = M)
    (hT : a.length + b.length ≠ 0) :
    ratioChars a b = 2 * (M : Rat) / ((a.length : Rat) + (b.length : Rat)) := by
  rw [ratioChars]
  rw [hM, if_pos hT]

/-- Counterexample to C9 as stated: `SequenceMatcher`'s greedy tie-breaking
is order-dependent — on `abqcd` versus `cdrabcd` the forward direction
matches `ab` and then `cd` (4 characters), the reverse direction only `cd`
(2 characters), so the similarity is 2/3 one way and 1/3 the other. -/
theorem C9_counterexample :
    similarity_score "abqcd" "cdrabcd" ≠ similarity_score "cdrabcd" "abqcd" := by
  have hl1 : pyLower "abqcd" = "abqcd" := by decide
  have hl2 : pyLower "cdrabcd" = "cdrabcd" := by decide
  have e1 := ratioChars_eval "abqcd".data "cdrabcd".data 4 (by decide) (by decide)
  have e2 := ratioChars_eval "cdrabcd".data "abqcd".data 2 (by decide) (by decide)
  have hn1 : "abqcd".data.length = 5 := by decide
  have hn2 : "cdrabcd".data.length = 7 := by decide
  rw [hn1, hn2] at e1 e2
  rw [similarity_score, similarity_score, hl1, hl2, e1, e2]
  norm_num

/-- C8 (amended).  Fuzzy-pass inclusion rule: a candidate from another
hospital in the seed's bucket joins the seed's group if and only if the
description similarity is *strictly* above 0.8 or their normalized code sets
overlap; a new seed is skipped exactly when its similarity to some
already-processed seed description is strictly above 0.9. -/
theorem C8_fuzzy_inclusion :
    (∀ (seed cand : ImpItem) (items : List ImpItem), cand ∈ items →
      cand.hospital ≠ seed.hospital →
      (cand ∈ similarItems seed items ↔
        ((4 : Rat)/5 <
            similarity_score seed.normalized_desc cand.normalized_desc ∨
          codeOverlapB seed cand = true))) ∧
    (∀ (processed : List String) (desc : String),
      skipSeed processed desc = true ↔
        ∃ d ∈ processed, (9 : Rat)/10 < similarity_score desc d) := by
  constructor
  · intro seed cand items hmem hne
    simp only [similarItems, List.mem_cons, List.mem_filter, Bool.and_eq_true,
      Bool.or_eq_true, decide_eq_true_eq]
    constructor
    · rintro (rfl | ⟨_, _, hcond⟩)
      · exact absurd rfl hne
      · exact hcond
    · intro h
      exact Or.inr ⟨hmem, hne, h⟩
  · intro processed desc
    simp [skipSeed, List.any_eq_true]

/-- Witness for C8: a candidate from another hospital joins the seed's group
through code overlap after normalization (`0X` and `X` normalize alike). -/
theorem C8_fuzzy_inclusion_witness :
    mkImpItem "H2" "ibuprofen" 1 [("0X", "CPT")] ∈
      similarItems (mkImpItem "H1" "aspirin" 1 [("X", "CPT")])
        [mkImpItem "H1" "aspirin" 1 [("X", "CPT")],
         mkImpItem "H2" "ibuprofen" 1 [("0X", "CPT")]] :=
  (C8_fuzzy_inclusion.1 (mkImpItem "H1" "aspirin" 1 [("X", "CPT")])
    (mkImpItem "H2" "ibuprofen" 1 [("0X", "CPT")]) _ (by decide) (by decide)).mpr
    (Or.inr (by decide))

/-- Counterexample to C8 as stated: two code-less records from different
hospitals in the same category bucket with description similarity exactly
0.8 — the claim's inclusive threshold demands inclusion, but the code's
strict `> 0.8` comparison leaves the candidate out of the seed's group. -/
theorem C8_counterexample :
    similarity_score "ab" "abx" = 4/5 ∧
    (mkImpItem "H1" "ab" 1 []).category = (mkImpItem "H2" "abx" 1 []).category ∧
    (mkImpItem "H2" "abx" 1 []).hospital ≠ (mkImpItem "H1" "ab" 1 []).hospital ∧
    codeOverlapB (mkImpItem "H1" "ab" 1 []) (mkImpItem "H2" "abx" 1 []) =
      false ∧
    mkImpItem "H2" "abx" 1 [] ∉
      similarItems (mkImpItem "H1" "ab" 1 [])
        [mkImpItem "H1" "ab" 1 [], mkImpItem "H2" "abx" 1 []] := by
  have hl1 : pyLower "ab" = "ab" := by decide
  have hl2 : pyLower "abx" = "abx" := by decide
  have e1 := ratioChars_eval "ab".data "abx".data 2 (by decide) (by decide)
  have hn1 : "ab".data.length = 2 := by decide
  have hn2 : "abx".data.length = 3 := by decide
  rw [hn1, hn2] at e1
  have hs1 : similarity_score "ab" "abx" = 4/5 := by
    rw [similarity_score, hl1, hl2, e1]
    norm_num
  refine ⟨hs1, by decide, by decide, by decide, ?_⟩
  intro hmem
  rcases List.mem_cons.mp hmem with heq | hmem2
  · exact absurd heq (by decide)
  · have hpred := (List.mem_filter.mp hmem2).2
    simp only [Bool.and_eq_true, Bool.or_eq_true, decide_eq_true_eq] at hpred
    rcases hpred.2 with hsim | hov
    · have hproj1 : (mkImpItem "H1" "ab" 1 []).normalized_desc = "ab" := by
        decide
      have hproj2 : (mkImpItem "H2" "abx" 1 []).normalized_desc = "abx" := by
        decide
      rw [hproj1, hproj2, hs1] at hsim
      norm_num at hsim
    · exact absurd hov (by decide)

end THP
